import Mathlib

/-! mov_to_mp4: a verification development.

A shallow embedding of `main.go` (the whole program of the repository) and of the
parts of Go's `path/filepath` (Unix flavour) and `fmt` scanning that it calls.

Conventions.
* A Go `string` is a byte sequence.  Paths are modelled as `List Char`; the path
  functions below only ever compare against the separator `/` and the dot `.`,
  both single bytes that never occur inside a multi-byte UTF-8 sequence, so the
  byte-wise loops of the library and the character-wise loops here agree.
* An index `r` into an immutable string is modelled by the remaining suffix
  `path[r:]`; a write buffer `buf[:w]` is modelled by the list of its bytes,
  most recent byte first, so `append` is `::` and `w` is the length.
* `float64` is modelled by exact rationals: rounding and overflow are outside
  the model.
-/

namespace MovToMp4

/-! ## `path/filepath` (Unix) -/

/-- The path separator test `os.IsPathSeparator` on Unix. -/
def isSep (c : Char) : Bool := c == '/'

/-- The inner loop of the default case of `Clean`:
`for ; r < n && !os.IsPathSeparator(path[r]); r++ { out.append(path[r]) }`.
Takes the unread input and the buffer, returns both after the copy. -/
def copyElem : List Char → List Char → List Char × List Char
  | [], out => ([], out)
  | c :: rest, out => if isSep c then (c :: rest, out) else copyElem rest (c :: out)

/-- The backtracking loop of the `..` case of `Clean`, entered after the first
`out.w--`: `for out.w > dotdot && !os.IsPathSeparator(out.index(out.w)) { out.w-- }`.
`dropped` is the byte `out.index(out.w)`, the one the last decrement removed. -/
def backtrack (dotdot : Nat) : Char → List Char → List Char
  | _, [] => []
  | dropped, c :: out =>
    if decide (out.length + 1 > dotdot) && !isSep dropped then backtrack dotdot c out
    else c :: out

/-- The lookahead `r+1 == n || os.IsPathSeparator(path[r+1])` on the input after `path[r]`. -/
def atEndOrSep : List Char → Bool
  | [] => true
  | c :: _ => isSep c

/-- The `..` case of `Clean` (`r += 2` is done by the caller): backtrack when
`out.w > dotdot`, otherwise append a `..` element when the path is not rooted. -/
def dotDotStep (rooted : Bool) (out : List Char) (dotdot : Nat) : List Char × Nat :=
  if out.length > dotdot then
    match out with
    | [] => (out, dotdot)
    | c :: out1 => (backtrack dotdot c out1, dotdot)
  else if !rooted then
    let out1 := if out.length > 0 then '/' :: out else out
    ('.' :: '.' :: out1, ('.' :: '.' :: out1).length)
  else (out, dotdot)

/-- The main loop `for r < n { switch ... }` of `filepath.Clean`.  The first
argument bounds the number of iterations; every iteration reads at least one
byte, so `n` iterations always suffice (`cleanLoop_fuel`).  Returns the buffer
and `dotdot` at loop exit. -/
def cleanLoop (rooted : Bool) : Nat → List Char → List Char → Nat → List Char × Nat
  | 0, _, out, dotdot => (out, dotdot)
  | _ + 1, [], out, dotdot => (out, dotdot)
  | fuel + 1, c :: rest, out, dotdot =>
    if isSep c then
      -- empty path element
      cleanLoop rooted fuel rest out dotdot
    else if c == '.' && atEndOrSep rest then
      -- . element
      cleanLoop rooted fuel rest out dotdot
    else if c == '.' && (rest.head?.any (· == '.')) && atEndOrSep rest.tail then
      -- .. element: remove to last separator
      let st := dotDotStep rooted out dotdot
      cleanLoop rooted fuel rest.tail st.1 st.2
    else
      -- real path element: add slash if needed, copy element
      let out1 := if (rooted && out.length != 1) || (!rooted && out.length != 0)
        then '/' :: out else out
      let st := copyElem (c :: rest) out1
      cleanLoop rooted fuel st.1 st.2 dotdot

/-- Go's `filepath.Clean` on Unix (no volume names). -/
def Clean (path : List Char) : List Char :=
  match path with
  | [] => ['.']
  | c :: rest =>
    let st := if isSep c then cleanLoop true path.length rest ['/'] 1
      else cleanLoop false path.length path [] 0
    -- Turn empty string into "."
    if st.1.length == 0 then ['.'] else st.1.reverse

/-- Go's `filepath.Join` on Unix: the elements from the first non-empty one on,
joined by separators and cleaned; empty when every element is empty. -/
def Join : List (List Char) → List Char
  | [] => []
  | e :: es => if e = [] then Join es else Clean (List.intercalate ['/'] (e :: es))

/-- Go's `filepath.Ext`: scan from the end until a separator; at the first dot
return the suffix starting there.  `acc` is `path[i+1:]`. -/
def extLoop : List Char → List Char → List Char
  | [], _ => []
  | c :: rev, acc =>
    if isSep c then [] else if c == '.' then c :: acc else extLoop rev (c :: acc)

/-- Go's `filepath.Ext`. -/
def Ext (path : List Char) : List Char := extLoop path.reverse []

/-- Go's `filepath.Dir` on Unix: clean the path up to and including its last separator. -/
def Dir (path : List Char) : List Char :=
  Clean (path.reverse.dropWhile (fun c => !isSep c)).reverse

/-- Go's `filepath.Base` on Unix. -/
def Base (path : List Char) : List Char :=
  if path = [] then ['.']
  else
    -- Strip trailing slashes.
    let rev := path.reverse.dropWhile isSep
    -- Find the last element
    let last := (rev.takeWhile (fun c => !isSep c)).reverse
    -- If empty now, it had only slashes.
    if last = [] then ['/'] else last

/-! ## `main.go`: path helper -/

/-- The source function `changeExtension` of `main.go`. -/
def changeExtension (file newExt : List Char) : List Char :=
  let dir := Dir file
  let fileName := Base file
  let newFileName := fileName.take (fileName.length - (Ext fileName).length) ++ newExt
  Join [dir, newFileName]

/-- The extension the program asks for. -/
def mp4 : List Char := ".mp4".toList

/-! ## `fmt`: scanning with the verb `%f` -/

/-- The method `accept` of the scanner state `ss`: read one rune into the token
buffer if it is one of `ok`.  The state is the unread input and the token
buffer, most recent rune first. -/
def accept (ok : List Char) (st : List Char × List Char) : Bool × (List Char × List Char) :=
  match st.1 with
  | [] => (false, st)
  | c :: rest => if c ∈ ok then (true, (rest, c :: st.2)) else (false, st)

/-- The loop `for s.accept(ok) {}`. -/
def acceptLoop (ok : List Char) : List Char → List Char → List Char × List Char
  | [], buf => ([], buf)
  | c :: rest, buf => if c ∈ ok then acceptLoop ok rest (c :: buf) else (c :: rest, buf)

/-- The loop `for s.accept(ok) {}` on a scanner state. -/
def acceptAll (ok : List Char) (st : List Char × List Char) : List Char × List Char :=
  acceptLoop ok st.1 st.2

/-- The constant `decimalDigits` of `fmt/scan.go`. -/
def decimalDigits : List Char := "0123456789".toList

/-- The constant `hexadecimalDigits` of `fmt/scan.go`. -/
def hexadecimalDigits : List Char := "0123456789aAbBcCdDeEfF".toList

/-- The method `floatToken` of `fmt/scan.go`: the longest prefix of the input
that looks like a floating-point number, and the input after it. -/
def floatToken (input : List Char) : List Char × List Char :=
  let st0 : List Char × List Char := (input, [])
  -- NaN?
  let n1 := accept "nN".toList st0
  let n2 := if n1.1 then accept "aA".toList n1.2 else (false, n1.2)
  let n3 := if n2.1 then accept "nN".toList n2.2 else (false, n2.2)
  if n3.1 then (n3.2.2.reverse, n3.2.1)
  else
    -- leading sign?
    let sg := accept "+-".toList n3.2
    -- Inf?
    let i1 := accept "iI".toList sg.2
    let i2 := if i1.1 then accept "nN".toList i1.2 else (false, i1.2)
    let i3 := if i2.1 then accept "fF".toList i2.2 else (false, i2.2)
    if i3.1 then (i3.2.2.reverse, i3.2.1)
    else
      let z := accept "0".toList i3.2
      let x := if z.1 then accept "xX".toList z.2 else (false, z.2)
      let digits := if x.1 then hexadecimalDigits ++ ['_'] else decimalDigits ++ ['_']
      let exp := if x.1 then "pP".toList else "eEpP".toList
      -- digits?
      let d1 := acceptAll digits x.2
      -- decimal point?
      let pt := accept ".".toList d1
      -- fraction?
      let d2 := if pt.1 then acceptAll digits pt.2 else pt.2
      -- exponent?
      let ex := accept exp d2
      let d3 := if ex.1 then acceptAll (decimalDigits ++ ['_']) (accept "+-".toList ex.2).2 else ex.2
      (d3.2.reverse, d3.1)

/-- The value of a decimal digit. -/
def digitVal (c : Char) : Nat := c.toNat - '0'.toNat

/-- The number a string of decimal digits denotes. -/
def decimalValue (ds : List Char) : Nat := ds.foldl (fun n c => 10 * n + digitVal c) 0

/-- The modelled fragment of `convertFloat` (which calls `strconv.ParseFloat`):
on a plain decimal numeral `digits` or `digits.digits` the exact value.
`none` elsewhere: signs, exponents, hexadecimal numerals, underscores, `Inf`,
`NaN` and malformed tokens are outside the model. -/
def convertFloat (token : List Char) : Option ℚ :=
  let ip := token.takeWhile Char.isDigit
  match token.dropWhile Char.isDigit with
  | [] => if ip = [] then none else some (decimalValue ip : ℚ)
  | c :: fp =>
    if c = '.' ∧ ip ≠ [] ∧ fp ≠ [] ∧ fp.all Char.isDigit = true
    then some ((decimalValue (ip ++ fp) : ℚ) / 10 ^ fp.length) else none

/-- The result of scanning one operand. -/
inductive Scan where
  /-- The operand got this value; the input after it. -/
  | value (q : ℚ) (rest : List Char)
  /-- The scan ended with an error: this and all later operands keep their old value. -/
  | stop
  /-- The token is outside the modelled fragment of `convertFloat`. -/
  | outside

/-- Scanning one `%f` operand (`scanOne` for a `*float64`): at the end of the
input `notEOF` ends the scan; otherwise the operand is the value of `floatToken`. -/
def scanFloat (input : List Char) : Scan :=
  match input with
  | [] => Scan.stop
  | _ :: _ =>
    match convertFloat (floatToken input).1 with
    | some q => Scan.value q (floatToken input).2
    | none => Scan.outside

/-- A literal rune of the format (`advance`): the input must continue with it,
otherwise the scan ends with an error. -/
def scanLiteral (lit : Char) (input : List Char) : Option (List Char) :=
  match input with
  | [] => none
  | c :: rest => if c = lit then some rest else none

/-- The call `fmt.Sscanf(currentTime, "%f:%f:%f.%f", &h, &m, &s, &ms)` on operands
that start as 0 (its results are ignored by the caller): the operands after
the call, or `none` when a token is outside the modelled fragment. -/
def sscanfTime (currentTime : List Char) : Option (ℚ × ℚ × ℚ × ℚ) :=
  match scanFloat currentTime with
  | Scan.outside => none
  | Scan.stop => some (0, 0, 0, 0)
  | Scan.value h r1 =>
    match scanLiteral ':' r1 with
    | none => some (h, 0, 0, 0)
    | some r2 =>
      match scanFloat r2 with
      | Scan.outside => none
      | Scan.stop => some (h, 0, 0, 0)
      | Scan.value m r3 =>
        match scanLiteral ':' r3 with
        | none => some (h, m, 0, 0)
        | some r4 =>
          match scanFloat r4 with
          | Scan.outside => none
          | Scan.stop => some (h, m, 0, 0)
          | Scan.value s r5 =>
            match scanLiteral '.' r5 with
            | none => some (h, m, s, 0)
            | some r6 =>
              match scanFloat r6 with
              | Scan.outside => none
              | Scan.stop => some (h, m, s, 0)
              | Scan.value ms _ => some (h, m, s, ms)

/-! ## `main.go`: progress -/

/-- The source function `calculatePercent`; `none` when the time stamp is
outside the modelled fragment of the scanner. -/
def calculatePercent (currentTime : List Char) (totalDuration : ℚ) : Option ℚ :=
  (sscanfTime currentTime).map fun t =>
    -- Parse the time in format HH:MM:SS.MS to seconds
    let currentSeconds := t.1 * 3600 + t.2.1 * 60 + t.2.2.1 + t.2.2.2 / 100
    (currentSeconds / totalDuration) * 100

/-- What the program does that can be observed: the lines it prints and the
commands it runs. -/
inductive Event where
  /-- Prints `Usage: mov_to_mp4 <input.mov>`. -/
  | usage
  /-- Runs `ffmpeg -version` (in `checkFFmpeg`). -/
  | probeEncoder
  /-- Prints `ffmpeg not found, installing via Homebrew...`. -/
  | installing
  /-- Runs `brew install ffmpeg`. -/
  | install
  /-- Prints `Failed to install ffmpeg. Please install it manually.`. -/
  | installFailed
  /-- Runs `ffprobe -v error -show_entries format=duration -of ... input`. -/
  | probeDuration (input : List Char)
  /-- Prints `Couldn't determine video duration. Processing without percentage...`. -/
  | noDuration
  /-- Prints `Error creating stderr pipe: ...`. -/
  | pipeError
  /-- Starts `ffmpeg` with these arguments (`cmd.Start`). -/
  | encode (args : List (List Char))
  /-- Prints `Error starting ffmpeg: ...`. -/
  | startError
  /-- Prints `Processing: <time> (<percent>%) [<resolution> resolution]`; the
  percentage is `none` when the model does not determine it, the resolution
  `none` when it is `original` and `some n` when it is `n%`. -/
  | progress (currentTime : List Char) (percent : Option ℚ) (resolution : Option Nat)
  /-- Prints `Processing: <time>`. -/
  | progressPlain (currentTime : List Char)
  /-- Prints `Conversion failed: ...`. -/
  | conversionFailed
  /-- Prints `Conversion complete!`. -/
  | conversionComplete
  /-- Prints `File exceeds <mb>MB, retrying with <percentage>% resolution...`. -/
  | retry (mb percentage : Nat)
  /-- Prints `Warning: File still exceeds <mb>MB after trying all resolution reductions.`. -/
  | warning (mb : Nat)
  /-- Prints `Successfully created MP4 under <mb>MB size limit.`. -/
  | success (mb : Nat)
  /-- Prints `Final file size: ... KB (... MB)`, computed from this number of bytes. -/
  | finalSize (bytes : Nat)
  deriving DecidableEq

/-- The label `resolutionInfo` that `convertVideo` computes from the filter:
`none` for `original`, `some n` for `n%` (`int(scaleFactor*100)`). -/
def resolutionInfo (scaleFilter : List Char) : Option Nat :=
  if scaleFilter ≠ [] then
    -- Extract the scaling factor from the filter
    if "iw*0.8".toList <:+: scaleFilter then some 80
    else if "iw*0.6".toList <:+: scaleFilter then some 60
    else if "iw*0.4".toList <:+: scaleFilter then some 40
    else if "iw*0.2".toList <:+: scaleFilter then some 20
    else some 100
  else none

/-- What `convertVideo` prints for one time stamp matched in the encoder output. -/
def progressEvent (currentTime : List Char) (duration : ℚ) (scaleFilter : List Char) : Event :=
  if duration > 0 then
    let percent := (calculatePercent currentTime duration).map fun percent =>
      if percent > 100 then 100 else percent
    Event.progress currentTime percent (resolutionInfo scaleFilter)
  else Event.progressPlain currentTime

/-! ## `main.go`: the encoder and the retry controller -/

/-- The constant `maxSizeBytes`. -/
def maxSizeBytes : Nat := 10 * 1024 * 1024

/-- What the outside world answers during one call of `convertVideo`. -/
structure Attempt where
  /-- The result of `getVideoDuration`: 0 when `ffprobe` fails or prints no number. -/
  duration : ℚ
  /-- Whether `cmd.StderrPipe()` returns an error. -/
  pipeFails : Bool
  /-- Whether `cmd.Start()` returns an error. -/
  startFails : Bool
  /-- For each chunk read from the encoder output, the time stamp the progress
  pattern captures in it, if any. -/
  chunks : List (Option (List Char))
  /-- Whether `cmd.Wait()` returns an error (non-zero exit status). -/
  waitFails : Bool
  /-- The answer of `os.Stat` on the output file after this call: its size, or
  `none` when the file cannot be stat'd. -/
  stat : Option Nat

/-- The outside world of one run of the program. -/
structure World where
  /-- Whether `ffmpeg -version` runs without error. -/
  ffmpegPresent : Bool
  /-- Whether `brew install ffmpeg` runs without error. -/
  installOk : Bool
  /-- The answers during the k-th call of `convertVideo`, counted from 0. -/
  attempt : Nat → Attempt

/-- The result of a run: what was observed, and the exit status. -/
structure Result where
  trace : List Event
  exitCode : Nat
  deriving DecidableEq

/-- The source function `fileSize`, on the answer of `os.Stat`. -/
def fileSize (stat : Option Nat) : Nat :=
  match stat with
  | none => 0
  | some size => size

/-- The argument list `args` that `convertVideo` builds for `ffmpeg`. -/
def convertArgs (input output scaleFilter : List Char) : List (List Char) :=
  let args := ["-i".toList, input, "-c:v".toList, "libx264".toList, "-preset".toList,
    "medium".toList, "-crf".toList, "23".toList, "-c:a".toList, "aac".toList,
    "-b:a".toList, "128k".toList]
  -- Add scale filter only if specified
  let args := if scaleFilter ≠ [] then args ++ ["-vf".toList, scaleFilter] else args
  args ++ ["-y".toList, output]

/-- The source function `getVideoDuration`: runs `ffprobe` and returns the duration. -/
def getVideoDuration (a : Attempt) (input : List Char) : List Event × ℚ :=
  ([Event.probeDuration input], a.duration)

/-- The source function `convertVideo`: what it prints and runs, and whether it
ends the program with `os.Exit(1)`. -/
def convertVideo (a : Attempt) (input output scaleFilter : List Char) : List Event × Bool :=
  -- First get the duration of the input video
  let probe := getVideoDuration a input
  let duration := probe.2
  let ev := probe.1 ++ (if duration ≤ 0 then [Event.noDuration] else [])
  -- Build the ffmpeg command
  let args := convertArgs input output scaleFilter
  if a.pipeFails then (ev ++ [Event.pipeError], true)
  else if a.startFails then (ev ++ [Event.encode args, Event.startError], true)
  else
    let shown := a.chunks.filterMap fun m =>
      m.map fun currentTime => progressEvent currentTime duration scaleFilter
    if a.waitFails then (ev ++ Event.encode args :: shown ++ [Event.conversionFailed], true)
    else (ev ++ Event.encode args :: shown ++ [Event.conversionComplete], false)

/-- The source function `checkFFmpeg`. -/
def checkFFmpeg (w : World) : List Event × Bool := ([Event.probeEncoder], w.ffmpegPresent)

/-- The source function `installFFmpeg`: what it prints and runs, and whether it
ends the program with `os.Exit(1)`. -/
def installFFmpeg (w : World) : List Event × Bool :=
  if w.installOk then ([Event.installing, Event.install], false)
  else ([Event.installing, Event.install, Event.installFailed], true)

/-- The slice `scalingFactors`, in tenths: 0.8, 0.6, 0.4, 0.2. -/
def scalingFactors : List Nat := [8, 6, 4, 2]

/-- The filter `fmt.Sprintf("scale=trunc(iw*%.1f/2)*2:trunc(ih*%.1f/2)*2", factor, factor)`
for a factor given in tenths. -/
def scaleFilter (factor : Nat) : List Char :=
  "scale=trunc(iw*0.".toList ++ [Nat.digitChar factor] ++ "/2)*2:trunc(ih*0.".toList ++
    [Nat.digitChar factor] ++ "/2)*2".toList

/-- The end of `main`, after the loop: the warning or the success lines. -/
def report (stat : Option Nat) : List Event :=
  -- If the file is still too large after trying all resolutions
  if fileSize stat > maxSizeBytes then [Event.warning (maxSizeBytes / (1024 * 1024))]
  else [Event.success (maxSizeBytes / (1024 * 1024)), Event.finalSize (fileSize stat)]

/-- The loop `for _, factor := range scalingFactors` of `main` and what follows
it.  `k` counts the calls of `convertVideo` made so far, `stat` is the answer
`os.Stat` gives for the output file now. -/
def retryLoop (w : World) (input output : List Char) : List Nat → Nat → Option Nat → Result
  | [], _, stat => ⟨report stat, 0⟩
  | factor :: rest, k, stat =>
    if fileSize stat ≤ maxSizeBytes then
      -- File is under the size limit, we're done
      ⟨report stat, 0⟩
    else
      let percentage := factor * 10
      let r := convertVideo (w.attempt k) input output (scaleFilter factor)
      let ev := Event.retry (maxSizeBytes / (1024 * 1024)) percentage :: r.1
      if r.2 then ⟨ev, 1⟩
      else
        let after := retryLoop w input output rest (k + 1) (w.attempt k).stat
        ⟨ev ++ after.trace, after.exitCode⟩

/-- The source function `main`, on the argument vector `os.Args`. -/
def main (args : List (List Char)) (w : World) : Result :=
  match args with
  | _ :: inputFile :: _ =>
    let outputFile := changeExtension inputFile mp4
    let check := checkFFmpeg w
    let inst := if !check.2 then installFFmpeg w else ([], false)
    if inst.2 then ⟨check.1 ++ inst.1, 1⟩
    else
      -- First try with original resolution
      let r := convertVideo (w.attempt 0) inputFile outputFile []
      if r.2 then ⟨check.1 ++ inst.1 ++ r.1, 1⟩
      else
        let after := retryLoop w inputFile outputFile scalingFactors 1 (w.attempt 0).stat
        ⟨check.1 ++ inst.1 ++ r.1 ++ after.trace, after.exitCode⟩
  | _ => ⟨[Event.usage], 1⟩

/-! ## Reading a run -/

/-- The argument lists of the encoder starts in a trace, in order. -/
def encodeCalls : List Event → List (List (List Char))
  | [] => []
  | Event.encode args :: tr => args :: encodeCalls tr
  | _ :: tr => encodeCalls tr

/-- Whether an event is the run of a command. -/
def isSubprocess : Event → Bool
  | Event.probeEncoder => true
  | Event.install => true
  | Event.probeDuration _ => true
  | Event.encode _ => true
  | _ => false

/-- Whether an event is one of the lines at the end of `main`: the size
warning or the success lines. -/
def isReport : Event → Bool
  | Event.warning _ => true
  | Event.success _ => true
  | Event.finalSize _ => true
  | _ => false

/-- Whether a call of `convertVideo` goes through: the pipe is created, the
encoder starts and exits with status 0. -/
def Attempt.ok (a : Attempt) : Bool := !a.pipeFails && !a.startFails && !a.waitFails

/-- What `main` prints and runs before the first call of `convertVideo`. -/
def startup (w : World) : List Event :=
  (checkFFmpeg w).1 ++ (if !(checkFFmpeg w).2 then installFFmpeg w else ([], false)).1

/-- What the k-th call of `convertVideo` that `main` makes prints and runs,
with the retry line that precedes it when it is a scaled one. -/
def attemptEvents (w : World) (input output : List Char) (k : Nat) : List Event :=
  match k with
  | 0 => (convertVideo (w.attempt 0) input output []).1
  | j + 1 =>
    Event.retry (maxSizeBytes / (1024 * 1024)) (scalingFactors.getD j 0 * 10) ::
      (convertVideo (w.attempt (j + 1)) input output (scaleFilter (scalingFactors.getD j 0))).1

/-- The trace of `main` up to the end of the k-th call of `convertVideo`. -/
def runUpTo (w : World) (input output : List Char) : Nat → List Event
  | 0 => startup w ++ attemptEvents w input output 0
  | k + 1 => runUpTo w input output k ++ attemptEvents w input output (k + 1)

/-- A call of `convertVideo` that goes through without progress output, with
no duration known, and leaves the output file with this answer of `os.Stat`. -/
def quietAttempt (stat : Option Nat) : Attempt := ⟨0, false, false, [], false, stat⟩

/-- A world with the encoder at hand in which every call goes through and the
calls leave the output file with these answers of `os.Stat`, in order. -/
def worldOfStats (stats : List (Option Nat)) : World :=
  ⟨true, true, fun k => quietAttempt (stats.getD k none)⟩

/-- A world with the encoder at hand in which the output stays at 20000000
bytes and the call number `k` ends with a non-zero exit status. -/
def worldFailingAt (k : Nat) : World :=
  ⟨true, true, fun j => ⟨0, false, false, [], j == k, some 20000000⟩⟩

/-- The filters of the five calls of `convertVideo` that `main` can make, in order. -/
def allFilters : List (List Char) := [] :: scalingFactors.map scaleFilter

/-- The size `fileSize` reports for the output file after the k-th call. -/
def sizeAfter (w : World) (k : Nat) : Nat := fileSize (w.attempt k).stat

/-! ## Proof devices for `Clean` -/

/-- The loop of `Clean` run with exactly as many iterations as there are unread bytes. -/
def cleanRun (rooted : Bool) (rest : List Char) (st : List Char × Nat) : List Char × Nat :=
  cleanLoop rooted rest.length rest st.1 st.2

/-- The buffer and `dotdot` with which `Clean` enters its loop. -/
def initState (rooted : Bool) : List Char × Nat := if rooted then (['/'], 1) else ([], 0)

/-- The buffer after the separator the default case of `Clean` adds when needed. -/
def sepFor (rooted : Bool) (out : List Char) : List Char :=
  if (rooted && out.length != 1) || (!rooted && out.length != 0) then '/' :: out else out

/-- What one path element does to the buffer and `dotdot` of `Clean`. -/
def stepComp (rooted : Bool) (comp : List Char) (st : List Char × Nat) : List Char × Nat :=
  if comp = [] ∨ comp = ['.'] then st
  else if comp = ['.', '.'] then dotDotStep rooted st.1 st.2
  else (comp.reverse ++ sepFor rooted st.1, st.2)

/-- A real path element: non-empty, without separator, neither `.` nor `..`. -/
def IsElem (e : List Char) : Prop := e ≠ [] ∧ (∀ c ∈ e, isSep c = false) ∧ e ≠ ['.'] ∧ e ≠ ['.', '.']

/-- The states of the loop of `Clean`: the root or nothing, then `..` elements
(not rooted only, with `dotdot` at their end), then real elements. -/
inductive Canon (rooted : Bool) : List Char → Nat → Prop
  | init : Canon rooted (initState rooted).1 (initState rooted).2
  | dots (out : List Char) (dd : Nat) : rooted = false → Canon rooted out dd → out.length = dd →
      Canon rooted ('.' :: '.' :: (if out.length > 0 then '/' :: out else out))
        (('.' :: '.' :: (if out.length > 0 then '/' :: out else out)).length)
  | elem (out : List Char) (dd : Nat) (e : List Char) : Canon rooted out dd → IsElem e →
      Canon rooted (e.reverse ++ sepFor rooted out) dd

/-- The input that follows the root, read back from the buffer. -/
def afterRoot (rooted : Bool) (out : List Char) : List Char :=
  if rooted then out.reverse.tail else out.reverse

/-- The last two lines of `Clean`: an empty buffer stands for `.`. -/
def finish (out : List Char) : List Char := if out.length == 0 then ['.'] else out.reverse

/-! ## Theory of `Clean` -/

theorem copyElem_length (rest out : List Char) : (copyElem rest out).1.length ≤ rest.length := by
  induction rest generalizing out with
  | nil => simp [copyElem]
  | cons c rest ih =>
    simp only [copyElem]
    split
    · simp
    · exact Nat.le_succ_of_le (ih _)

theorem copyElem_append (comp tail out : List Char) (hc : ∀ c ∈ comp, isSep c = false)
    (ht : atEndOrSep tail = true) : copyElem (comp ++ tail) out = (tail, comp.reverse ++ out) := by
  induction comp generalizing out with
  | nil =>
    cases tail with
    | nil => simp [copyElem]
    | cons t tail => simp [atEndOrSep] at ht; simp [copyElem, ht]
  | cons c comp ih =>
    have hc1 : isSep c = false := hc c (by simp)
    have ih1 := ih (c :: out) (fun x hx => hc x (by simp [hx]))
    rw [List.cons_append, copyElem]
    simp [hc1, ih1]

theorem cleanLoop_fuel_aux (rooted : Bool) (n : Nat) : ∀ (f1 f2 : Nat) (rest out : List Char) (dd : Nat),
    rest.length ≤ n → n ≤ f1 → n ≤ f2 →
    cleanLoop rooted f1 rest out dd = cleanLoop rooted f2 rest out dd := by
  induction n with
  | zero =>
    intro f1 f2 rest out dd h _ _
    have : rest = [] := List.length_eq_zero.mp (Nat.le_zero.mp h)
    subst this
    cases f1 <;> cases f2 <;> simp [cleanLoop]
  | succ n ih =>
    intro f1 f2 rest out dd h h1 h2
    obtain ⟨g1, rfl⟩ : ∃ g, f1 = g + 1 := ⟨f1 - 1, by omega⟩
    obtain ⟨g2, rfl⟩ : ∃ g, f2 = g + 1 := ⟨f2 - 1, by omega⟩
    cases rest with
    | nil => simp [cleanLoop]
    | cons c rest =>
      simp only [List.length_cons] at h
      simp only [cleanLoop]
      split
      · exact ih _ _ _ _ _ (by omega) (by omega) (by omega)
      · split
        · exact ih _ _ _ _ _ (by omega) (by omega) (by omega)
        · split
          · exact ih _ _ _ _ _ (by simp; omega) (by omega) (by omega)
          · refine ih _ _ _ _ _ ?_ (by omega) (by omega)
            rename_i hsep _ _
            have hs : isSep c = false := by simpa using hsep
            simp only [copyElem, hs]
            exact le_trans (copyElem_length _ _) (by omega)

/-- Every iteration of the loop of `Clean` reads at least one byte: any bound
from the number of unread bytes up gives the same result. -/
theorem cleanLoop_fuel (rooted : Bool) (fuel : Nat) (rest : List Char) (st : List Char × Nat)
    (h : rest.length ≤ fuel) : cleanLoop rooted fuel rest st.1 st.2 = cleanRun rooted rest st :=
  cleanLoop_fuel_aux rooted rest.length fuel rest.length rest st.1 st.2 (le_refl _) h (le_refl _)

theorem cleanRun_nil (rooted : Bool) (st : List Char × Nat) : cleanRun rooted [] st = st := by
  simp [cleanRun, cleanLoop]

theorem cleanRun_sep (rooted : Bool) (rest : List Char) (st : List Char × Nat) :
    cleanRun rooted ('/' :: rest) st = cleanRun rooted rest st := by
  simp [cleanRun, cleanLoop, isSep]

theorem atEndOrSep_append (comp tail : List Char) (hne : comp ≠ [])
    (hc : ∀ c ∈ comp, isSep c = false) : atEndOrSep (comp ++ tail) = false := by
  cases comp with
  | nil => exact absurd rfl hne
  | cons c comp => simpa [atEndOrSep] using hc c (by simp)

theorem cleanLoop_dot_case (rooted : Bool) (fuel : Nat) (c : Char) (rest out : List Char) (dd : Nat)
    (h1 : isSep c = false) (h2 : (c == '.' && atEndOrSep rest) = true) :
    cleanLoop rooted (fuel + 1) (c :: rest) out dd = cleanLoop rooted fuel rest out dd := by
  rw [cleanLoop, h1, h2]; rfl

theorem cleanLoop_dotdot_case (rooted : Bool) (fuel : Nat) (c : Char) (rest out : List Char) (dd : Nat)
    (h1 : isSep c = false) (h2 : (c == '.' && atEndOrSep rest) = false)
    (h3 : (c == '.' && (rest.head?.any (· == '.')) && atEndOrSep rest.tail) = true) :
    cleanLoop rooted (fuel + 1) (c :: rest) out dd =
      cleanLoop rooted fuel rest.tail (dotDotStep rooted out dd).1 (dotDotStep rooted out dd).2 := by
  rw [cleanLoop, h1, h2, h3]; rfl

theorem cleanLoop_default_case (rooted : Bool) (fuel : Nat) (c : Char) (rest out : List Char) (dd : Nat)
    (h1 : isSep c = false) (h2 : (c == '.' && atEndOrSep rest) = false)
    (h3 : (c == '.' && (rest.head?.any (· == '.')) && atEndOrSep rest.tail) = false) :
    cleanLoop rooted (fuel + 1) (c :: rest) out dd =
      cleanLoop rooted fuel (copyElem (c :: rest) (sepFor rooted out)).1
        (copyElem (c :: rest) (sepFor rooted out)).2 dd := by
  rw [cleanLoop, h1, h2, h3]; rfl

theorem cleanRun_dot (rooted : Bool) (tail : List Char) (st : List Char × Nat)
    (ht : atEndOrSep tail = true) : cleanRun rooted ('.' :: tail) st = cleanRun rooted tail st := by
  simp only [cleanRun, List.length_cons]
  rw [cleanLoop_dot_case _ _ _ _ _ _ (by decide) (by simp [ht])]

theorem cleanRun_dotdot (rooted : Bool) (tail : List Char) (st : List Char × Nat)
    (ht : atEndOrSep tail = true) :
    cleanRun rooted ('.' :: '.' :: tail) st = cleanRun rooted tail (dotDotStep rooted st.1 st.2) := by
  have h := cleanLoop_fuel rooted (tail.length + 1) tail (dotDotStep rooted st.1 st.2) (by omega)
  simp only [cleanRun, List.length_cons]
  rw [cleanLoop_dotdot_case _ _ _ _ _ _ (by decide) (by simp [atEndOrSep, isSep]) (by simp [ht])]
  simpa [cleanRun] using h

theorem cleanRun_elem (rooted : Bool) (e tail : List Char) (st : List Char × Nat)
    (he : IsElem e) (ht : atEndOrSep tail = true) :
    cleanRun rooted (e ++ tail) st = cleanRun rooted tail (e.reverse ++ sepFor rooted st.1, st.2) := by
  obtain ⟨hne, hc, h1, h2⟩ := he
  cases e with
  | nil => exact absurd rfl hne
  | cons c e =>
    have hs : isSep c = false := hc c (by simp)
    have hce : ∀ x ∈ e, isSep x = false := fun x hx => hc x (by simp [hx])
    have c2 : (c == '.' && atEndOrSep (e ++ tail)) = false := by
      cases e with
      | nil =>
        have : c ≠ '.' := fun h => h1 (by rw [h])
        simp [this]
      | cons d e =>
        rw [atEndOrSep_append (d :: e) tail (by simp) hce]; simp
    have c3 : (c == '.' && ((e ++ tail).head?.any (· == '.')) && atEndOrSep (e ++ tail).tail) = false := by
      cases e with
      | nil =>
        cases tail with
        | nil => simp
        | cons t tail =>
          have : t = '/' := by simpa [atEndOrSep, isSep] using ht
          subst this
          simp
      | cons d e =>
        cases e with
        | nil =>
          have : ¬ (c = '.' ∧ d = '.') := fun h => h2 (by rw [h.1, h.2])
          by_cases hc' : c = '.'
          · have hd : d ≠ '.' := fun h => this ⟨hc', h⟩
            simp [hd]
          · simp [hc']
        | cons x e =>
          have := atEndOrSep_append (x :: e) tail (by simp) (fun y hy => hce y (by simp [hy]))
          simp only [List.cons_append, List.tail_cons]
          rw [← List.cons_append, this]; simp
    have hcopy := copyElem_append (c :: e) tail (sepFor rooted st.1) hc ht
    have hfuel := cleanLoop_fuel rooted (e ++ tail).length tail
      ((c :: e).reverse ++ sepFor rooted st.1, st.2) (by simp)
    simp only [cleanRun, List.cons_append, List.length_cons]
    rw [cleanLoop_default_case _ _ _ _ _ _ hs c2 c3]
    simp only [List.cons_append] at hcopy
    rw [hcopy]
    exact hfuel

/-- One path element followed by a separator or the end of the input is
consumed as a whole, with the effect `stepComp`. -/
theorem cleanRun_chunk (rooted : Bool) (comp tail : List Char) (st : List Char × Nat)
    (hc : ∀ c ∈ comp, isSep c = false) (ht : atEndOrSep tail = true) :
    cleanRun rooted (comp ++ tail) st = cleanRun rooted tail (stepComp rooted comp st) := by
  by_cases h0 : comp = []
  · subst h0; simp [stepComp]
  by_cases h1 : comp = ['.']
  · subst h1; simpa [stepComp] using cleanRun_dot rooted tail st ht
  by_cases h2 : comp = ['.', '.']
  · subst h2; simpa [stepComp] using cleanRun_dotdot rooted tail st ht
  · rw [cleanRun_elem rooted comp tail st ⟨h0, hc, h1, h2⟩ ht]
    simp [stepComp, h0, h1, h2]

theorem isSep_iff (c : Char) : isSep c = true ↔ c = '/' := by simp [isSep]

/-- Induction over an input of `Clean`, one separator or one path element at a time. -/
theorem path_induction (P : List Char → Prop) (hnil : P [])
    (hsep : ∀ rest, P rest → P ('/' :: rest))
    (hchunk : ∀ comp tail, comp ≠ [] → (∀ c ∈ comp, isSep c = false) → atEndOrSep tail = true →
      P tail → P (comp ++ tail)) : ∀ rest, P rest := by
  suffices hall : ∀ n, ∀ rest : List Char, rest.length = n → P rest from
    fun rest => hall _ rest rfl
  intro n
  induction n using Nat.strong_induction_on with
  | _ n ih =>
    intro rest h
    cases rest with
    | nil => exact hnil
    | cons c r =>
      by_cases hs : isSep c = true
      · rw [(isSep_iff c).mp hs]
        exact hsep r (ih r.length (by simp at h; omega) r rfl)
      · have hs' : isSep c = false := by simpa using hs
        have hsplit := List.takeWhile_append_dropWhile (fun x => !isSep x) (c :: r)
        rw [← hsplit]
        apply hchunk
        · simp [List.takeWhile, hs']
        · intro x hx
          have := List.mem_takeWhile_imp hx
          simpa using this
        · cases hd : (c :: r).dropWhile (fun x => !isSep x) with
          | nil => rfl
          | cons t tl =>
            have := List.head_dropWhile_not (fun x => !isSep x) (c :: r) (by rw [hd]; simp)
            simp only [hd, List.head_cons] at this
            simpa [atEndOrSep] using this
        · refine ih _ ?_ _ rfl
          have hl := congrArg List.length hsplit
          rw [List.length_append] at hl
          have : 0 < ((c :: r).takeWhile (fun x => !isSep x)).length := by
            simp [List.takeWhile, hs']
          simp only [List.length_cons] at h hl
          omega

/-- The loop of `Clean` can be cut at any separator. -/
theorem cleanRun_append (rooted : Bool) (a tail : List Char) (ht : atEndOrSep tail = true) :
    ∀ st, cleanRun rooted (a ++ tail) st = cleanRun rooted tail (cleanRun rooted a st) := by
  refine path_induction (fun a => ∀ st, cleanRun rooted (a ++ tail) st =
    cleanRun rooted tail (cleanRun rooted a st)) ?_ ?_ ?_ a
  · intro st; simp [cleanRun_nil]
  · intro rest ih st
    rw [List.cons_append, cleanRun_sep, cleanRun_sep, ih]
  · intro comp t _ hc hat ih st
    have hat' : atEndOrSep (t ++ tail) = true := by
      cases t with
      | nil => simpa using ht
      | cons x t => simpa [atEndOrSep] using hat
    have h0 := cleanRun_chunk rooted comp t st hc hat
    rw [List.append_assoc, cleanRun_chunk rooted comp (t ++ tail) st hc hat', h0, ih]

theorem canon_dd_le (rooted : Bool) (out : List Char) (dd : Nat) (h : Canon rooted out dd) :
    dd ≤ out.length := by
  induction h with
  | init => cases rooted <;> simp [initState]
  | dots out dd _ _ _ _ => exact le_refl _
  | elem out dd e _ _ ih =>
    simp only [List.length_append, sepFor]
    split <;> simp <;> omega

theorem canon_rooted (out : List Char) (dd : Nat) (h : Canon true out dd) :
    dd = 1 ∧ 1 ≤ out.length := by
  induction h with
  | init => simp [initState]
  | dots out dd hr _ _ _ => cases hr
  | elem out dd e _ _ ih =>
    refine ⟨ih.1, ?_⟩
    simp only [List.length_append, sepFor]
    split <;> simp <;> omega

theorem backtrack_cons (dd : Nat) (dropped c : Char) (out : List Char)
    (h : out.length + 1 > dd) (hd : isSep dropped = false) :
    backtrack dd dropped (c :: out) = backtrack dd c out := by
  simp [backtrack, h, hd]

theorem backtrack_stop (dd : Nat) (dropped c : Char) (out : List Char)
    (h : ¬ out.length + 1 > dd ∨ isSep dropped = true) :
    backtrack dd dropped (c :: out) = c :: out := by
  rcases h with h | h
  · have : ¬ dd < out.length + 1 := h
    simp [backtrack, this]
  · simp [backtrack, h]

theorem backtrack_sep (dd : Nat) (out0 : List Char) (h : dd ≤ out0.length) :
    ∀ (er : List Char) (c : Char), isSep c = false → (∀ x ∈ er, isSep x = false) →
      backtrack dd c (er ++ '/' :: out0) = out0 := by
  intro er
  induction er with
  | nil =>
    intro c hc _
    rw [List.nil_append, backtrack_cons dd c '/' out0 (by omega) hc]
    cases out0 with
    | nil => simp [backtrack]
    | cons x o => exact backtrack_stop dd '/' x o (Or.inr rfl)
  | cons y er ih =>
    intro c hc her
    rw [List.cons_append, backtrack_cons dd c y _ (by simp; omega) hc]
    exact ih y (her y (by simp)) (fun x hx => her x (by simp [hx]))

theorem backtrack_init (dd : Nat) (out0 : List Char) (h : out0.length = dd) :
    ∀ (er : List Char) (c : Char), isSep c = false → (∀ x ∈ er, isSep x = false) →
      backtrack dd c (er ++ out0) = out0 := by
  intro er
  induction er with
  | nil =>
    intro c _ _
    cases out0 with
    | nil => simp [backtrack]
    | cons x o =>
      exact backtrack_stop dd c x o (Or.inl (by simp at h; omega))
  | cons y er ih =>
    intro c hc her
    rw [List.cons_append, backtrack_cons dd c y _ (by simp; omega) hc]
    exact ih y (her y (by simp)) (fun x hx => her x (by simp [hx]))

theorem dotDotStep_gt (rooted : Bool) (c : Char) (o : List Char) (dd : Nat)
    (h : (c :: o).length > dd) : dotDotStep rooted (c :: o) dd = (backtrack dd c o, dd) := by
  unfold dotDotStep
  rw [if_pos h]

theorem sepFor_init (rooted : Bool) (out : List Char) (dd : Nat) (h : Canon rooted out dd)
    (hsep : ((rooted && out.length != 1) || (!rooted && out.length != 0)) = false) :
    (out, dd) = initState rooted := by
  cases rooted with
  | true =>
    have h1 := canon_rooted out dd h
    have hl : out.length = 1 := by simpa using hsep
    cases h with
    | init => rfl
    | dots out dd hr _ _ => cases hr
    | elem out dd e hc he =>
      exfalso
      have h2 := canon_rooted out dd hc
      have : e.length = 0 := by
        simp only [List.length_append, List.length_reverse, sepFor] at hl
        split at hl
        · simp only [List.length_cons] at hl; omega
        · omega
      exact he.1 (List.length_eq_zero.mp this)
  | false =>
    have hl : out.length = 0 := by simpa using hsep
    have hle := canon_dd_le false out dd h
    have ho : out = [] := List.length_eq_zero.mp hl
    subst ho
    have : dd = 0 := by simpa using hle
    subst this
    rfl

/-- Backtracking over a real element gives back the buffer from before it. -/
theorem dotDotStep_elem (rooted : Bool) (out : List Char) (dd : Nat) (e : List Char)
    (h : Canon rooted out dd) (he : IsElem e) :
    dotDotStep rooted (e.reverse ++ sepFor rooted out) dd = (out, dd) := by
  obtain ⟨hne, hc, _, _⟩ := he
  have hle := canon_dd_le rooted out dd h
  obtain ⟨c, er, hrev⟩ : ∃ c er, e.reverse = c :: er := by
    cases hr : e.reverse with
    | nil => exact absurd (List.reverse_eq_nil_iff.mp hr) hne
    | cons c er => exact ⟨c, er, rfl⟩
  have hmem : ∀ x ∈ c :: er, isSep x = false := by
    intro x hx; rw [← hrev] at hx; exact hc x (List.mem_reverse.mp hx)
  have hcs : isSep c = false := hmem c (by simp)
  have hers : ∀ x ∈ er, isSep x = false := fun x hx => hmem x (by simp [hx])
  rw [hrev]
  by_cases hsep : ((rooted && out.length != 1) || (!rooted && out.length != 0)) = true
  · have hs : sepFor rooted out = '/' :: out := by simp only [sepFor, hsep, if_true]
    rw [hs, List.cons_append, dotDotStep_gt _ _ _ _ (by simp; omega),
      backtrack_sep dd out hle er c hcs hers]
  · have hsep' : ((rooted && out.length != 1) || (!rooted && out.length != 0)) = false := by
      simpa using hsep
    have hs : sepFor rooted out = out := by simp only [sepFor, hsep]; rfl
    have hinit := sepFor_init rooted out dd h hsep'
    have hlen : out.length = dd := by
      cases rooted <;> simp [initState] at hinit <;> simp [hinit.1, hinit.2]
    rw [hs, List.cons_append, dotDotStep_gt _ _ _ _ (by simp; omega),
      backtrack_init dd out hlen er c hcs hers]

/-- The loop states stay in the shape `Canon` under every path element. -/
theorem canon_step (rooted : Bool) (comp : List Char) (st : List Char × Nat)
    (h : Canon rooted st.1 st.2) (hc : ∀ c ∈ comp, isSep c = false) :
    Canon rooted (stepComp rooted comp st).1 (stepComp rooted comp st).2 := by
  unfold stepComp
  by_cases h0 : comp = [] ∨ comp = ['.']
  · rw [if_pos h0]; exact h
  rw [if_neg h0]
  by_cases h2 : comp = ['.', '.']
  · rw [if_pos h2]
    obtain ⟨out, dd⟩ := st
    simp only at h ⊢
    cases h with
    | init =>
      cases rooted with
      | true => simpa [initState, dotDotStep] using (Canon.init : Canon true _ _)
      | false =>
        have := @Canon.dots false [] 0 rfl Canon.init rfl
        simpa [initState, dotDotStep] using this
    | dots out dd hr hcan hlen =>
      have hnot : ¬ ('.' :: '.' :: (if out.length > 0 then '/' :: out else out)).length >
          ('.' :: '.' :: (if out.length > 0 then '/' :: out else out)).length := lt_irrefl _
      have := Canon.dots _ _ hr (Canon.dots out dd hr hcan hlen) rfl
      unfold dotDotStep
      rw [if_neg hnot]
      subst hr
      exact this
    | elem out dd e hcan he =>
      rw [dotDotStep_elem rooted out dd e hcan he]
      exact hcan
  · rw [if_neg h2]
    have h0' := not_or.mp h0
    exact Canon.elem st.1 st.2 comp h ⟨h0'.1, hc, h0'.2, h2⟩

/-- Every state the loop of `Clean` reaches has the shape `Canon`. -/
theorem canon_run (rooted : Bool) (rest : List Char) :
    ∀ st : List Char × Nat, Canon rooted st.1 st.2 →
      Canon rooted (cleanRun rooted rest st).1 (cleanRun rooted rest st).2 := by
  refine path_induction (fun rest => ∀ st : List Char × Nat, Canon rooted st.1 st.2 →
      Canon rooted (cleanRun rooted rest st).1 (cleanRun rooted rest st).2) ?_ ?_ ?_ rest
  · intro st h; rw [cleanRun_nil]; exact h
  · intro rest ih st h; rw [cleanRun_sep]; exact ih st h
  · intro comp tail _ hc hat ih st h
    rw [cleanRun_chunk rooted comp tail st hc hat]
    exact ih _ (canon_step rooted comp st h hc)

theorem afterRoot_init (rooted : Bool) : afterRoot rooted (initState rooted).1 = [] := by
  cases rooted <;> rfl

theorem afterRoot_append (rooted : Bool) (out : List Char) (dd : Nat) (h : Canon rooted out dd)
    (x : List Char)
    (hx : ((rooted && out.length != 1) || (!rooted && out.length != 0)) = true) :
    afterRoot rooted (x ++ out) = afterRoot rooted out ++ x.reverse := by
  cases rooted with
  | true =>
    have h1 := canon_rooted out dd h
    simp only [afterRoot, if_true, List.reverse_append]
    cases hr : out.reverse with
    | nil =>
      have : out = [] := List.reverse_eq_nil_iff.mp hr
      subst this
      simp at h1
    | cons c t => simp
  | false => simp [afterRoot]

/-- Reading back a loop state as input reproduces the state. -/
theorem canon_replay (rooted : Bool) (out : List Char) (dd : Nat) (h : Canon rooted out dd) :
    ∀ tail, atEndOrSep tail = true →
      cleanRun rooted (afterRoot rooted out ++ tail) (initState rooted) =
        cleanRun rooted tail (out, dd) := by
  induction h with
  | init => intro tail _; rw [afterRoot_init]; rfl
  | dots out dd hr hcan hlen ih =>
    intro tail hat
    subst hr
    have hnot : ¬ out.length > dd := by omega
    have hstep : dotDotStep false out dd =
        ('.' :: '.' :: (if out.length > 0 then '/' :: out else out),
          ('.' :: '.' :: (if out.length > 0 then '/' :: out else out)).length) := by
      unfold dotDotStep
      rw [if_neg hnot]
      rfl
    by_cases hpos : out.length > 0
    · have hrev : afterRoot false ('.' :: '.' :: (if out.length > 0 then '/' :: out else out)) ++ tail
          = afterRoot false out ++ ('/' :: '.' :: '.' :: tail) := by
        simp [afterRoot, hpos]
      rw [hrev, ih ('/' :: '.' :: '.' :: tail) rfl, cleanRun_sep,
        cleanRun_dotdot false tail (out, dd) hat, hstep]
    · have ho : out = [] := List.length_eq_zero.mp (by omega)
      subst ho
      have hd : dd = 0 := by simpa using hlen.symm
      subst hd
      have hrev : afterRoot false ('.' :: '.' :: (if ([] : List Char).length > 0 then '/' :: [] else []))
          ++ tail = '.' :: '.' :: tail := by
        simp [afterRoot]
      rw [hrev]
      have := cleanRun_dotdot false tail ([], 0) hat
      rw [hstep] at this
      exact this
  | elem out dd e hcan he ih =>
    intro tail hat
    by_cases hsep : ((rooted && out.length != 1) || (!rooted && out.length != 0)) = true
    · have hs : sepFor rooted out = '/' :: out := by simp only [sepFor, hsep, if_true]
      have hrev : afterRoot rooted (e.reverse ++ sepFor rooted out) ++ tail =
          afterRoot rooted out ++ ('/' :: (e ++ tail)) := by
        rw [hs]
        have := afterRoot_append rooted out dd hcan (e.reverse ++ ['/']) hsep
        simp only [List.append_assoc, List.singleton_append] at this
        rw [this]
        simp
      rw [hrev, ih ('/' :: (e ++ tail)) rfl, cleanRun_sep,
        cleanRun_elem rooted e tail (out, dd) he hat]
    · have hsep' : ((rooted && out.length != 1) || (!rooted && out.length != 0)) = false := by
        simpa using hsep
      have hs : sepFor rooted out = out := by simp only [sepFor, hsep]; rfl
      have hinit := sepFor_init rooted out dd hcan hsep'
      have hrev : afterRoot rooted (e.reverse ++ sepFor rooted out) = e := by
        rw [hs]
        have ho : out = (initState rooted).1 := congrArg Prod.fst hinit
        rw [ho]
        cases rooted <;> simp [afterRoot, initState]
      rw [hrev, ← hinit, cleanRun_elem rooted e tail (out, dd) he hat]

theorem head?_append_of_ne_nil (l1 l2 : List Char) (h : l1 ≠ []) :
    (l1 ++ l2).head? = l1.head? := by
  cases l1 with
  | nil => exact absurd rfl h
  | cons a l1 => rfl

/-- The first byte of a non-empty loop state is a separator exactly when the path is rooted. -/
theorem canon_head (rooted : Bool) (out : List Char) (dd : Nat) (h : Canon rooted out dd) :
    ∀ c, out.reverse.head? = some c → isSep c = rooted := by
  induction h with
  | init =>
    intro c hc
    cases rooted with
    | true =>
      simp [initState] at hc
      rw [← hc]; rfl
    | false => simp [initState] at hc
  | dots out dd hr hcan hlen ih =>
    intro c hc
    subst hr
    by_cases hpos : out.length > 0
    · have hne : out.reverse ≠ [] := by
        intro hn
        have : out = [] := List.reverse_eq_nil_iff.mp hn
        subst this
        simp at hpos
      have heq : ('.' :: '.' :: (if out.length > 0 then '/' :: out else out)).reverse =
          out.reverse ++ ['/', '.', '.'] := by simp [hpos]
      rw [heq, head?_append_of_ne_nil _ _ hne] at hc
      exact ih c hc
    · have ho : out = [] := List.length_eq_zero.mp (by omega)
      subst ho
      simp at hc
      rw [← hc]; rfl
  | elem out dd e hcan he ih =>
    intro c hc
    by_cases hne : out = []
    · subst hne
      cases rooted with
      | true => have := canon_rooted [] dd hcan; simp at this
      | false =>
        have he' : e ≠ [] := he.1
        simp only [sepFor, List.reverse_append, List.reverse_reverse] at hc
        simp at hc
        cases e with
        | nil => exact absurd rfl he'
        | cons a e =>
          simp at hc
          rw [← hc]
          exact he.2.1 a (by simp)
    · have hne' : out.reverse ≠ [] := fun hn => hne (List.reverse_eq_nil_iff.mp hn)
      have heq : ∃ y, (e.reverse ++ sepFor rooted out).reverse = out.reverse ++ y := by
        unfold sepFor
        split
        · exact ⟨'/' :: e, by simp⟩
        · exact ⟨e, by simp⟩
      obtain ⟨y, hy⟩ := heq
      rw [hy, head?_append_of_ne_nil _ _ hne'] at hc
      exact ih c hc

/-- The function `Clean` on a non-empty path, in terms of the loop run to its end. -/
theorem Clean_cons (c : Char) (rest : List Char) :
    Clean (c :: rest) = finish (cleanRun (isSep c) (if isSep c then rest else c :: rest)
      (initState (isSep c))).1 := by
  cases hs : isSep c with
  | true =>
    have := cleanLoop_fuel true (c :: rest).length rest (['/'], 1) (by simp)
    simp only at this
    simp only [Clean, hs, if_true, initState, this]
    rfl
  | false =>
    simp only [Clean, hs, Bool.false_eq_true, if_false, initState, cleanRun]
    rfl

theorem canon_reverse (rooted : Bool) (out : List Char) (dd : Nat) (h : Canon rooted out dd)
    (hne : out ≠ []) : ∃ c rest, out.reverse = c :: rest ∧ isSep c = rooted ∧
      (if isSep c then rest else c :: rest) = afterRoot rooted out := by
  cases hr : out.reverse with
  | nil => exact absurd (List.reverse_eq_nil_iff.mp hr) hne
  | cons c rest =>
    have hc := canon_head rooted out dd h c (by rw [hr]; rfl)
    refine ⟨c, rest, rfl, hc, ?_⟩
    cases rooted <;> simp [afterRoot, hr, hc]

/-- A non-empty loop state read back as a path, then more input from a
separator on: `Clean` resumes from that state. -/
theorem Clean_of_canon (rooted : Bool) (out : List Char) (dd : Nat) (h : Canon rooted out dd)
    (hne : out ≠ []) (tail : List Char) (hat : atEndOrSep tail = true) :
    Clean (out.reverse ++ tail) = finish (cleanRun rooted tail (out, dd)).1 := by
  obtain ⟨c, rest, hr, hc, haft⟩ := canon_reverse rooted out dd h hne
  rw [hr, List.cons_append, Clean_cons, hc]
  have : (if rooted = true then rest ++ tail else c :: (rest ++ tail)) =
      afterRoot rooted out ++ tail := by
    rw [← haft, hc]
    cases rooted <;> simp
  rw [this, canon_replay rooted out dd h tail hat]

/-- The state in which the loop of `Clean` ends on a non-empty path. -/
theorem Clean_state (c : Char) (rest : List Char) :
    ∃ out dd, Canon (isSep c) out dd ∧ Clean (c :: rest) = finish out ∧
      ∀ tail, atEndOrSep tail = true →
        Clean (c :: rest ++ tail) = finish (cleanRun (isSep c) tail (out, dd)).1 := by
  let st := cleanRun (isSep c) (if isSep c then rest else c :: rest) (initState (isSep c))
  have hcan : Canon (isSep c) st.1 st.2 := canon_run _ _ _ Canon.init
  refine ⟨st.1, st.2, hcan, Clean_cons c rest, ?_⟩
  intro tail hat
  rw [List.cons_append, Clean_cons]
  have : (if isSep c = true then rest ++ tail else c :: (rest ++ tail)) =
      (if isSep c = true then rest else c :: rest) ++ tail := by
    cases isSep c <;> simp
  rw [this, cleanRun_append _ _ _ hat]

theorem finish_ne_nil (out : List Char) : finish out ≠ [] := by
  unfold finish
  split
  · simp
  · rename_i h
    intro hn
    have : out = [] := List.reverse_eq_nil_iff.mp hn
    subst this
    simp at h

theorem Clean_ne_nil (path : List Char) : Clean path ≠ [] := by
  cases path with
  | nil => simp [Clean]
  | cons c rest => rw [Clean_cons]; exact finish_ne_nil _

/-- The function `Clean` is idempotent. -/
theorem Clean_idem (path : List Char) : Clean (Clean path) = Clean path := by
  cases path with
  | nil => decide
  | cons c rest =>
    obtain ⟨out, dd, hcan, hclean, _⟩ := Clean_state c rest
    rw [hclean]
    by_cases hne : out = []
    · subst hne; decide
    · have hf : finish out = out.reverse := by
        unfold finish
        rw [if_neg]
        simpa using hne
      have := Clean_of_canon _ out dd hcan hne [] rfl
      rw [List.append_nil, cleanRun_nil] at this
      rw [hf, this, hf]

/-- Joining onto a cleaned non-empty path is joining onto the path itself. -/
theorem Clean_join_absorb (a b : List Char) (ha : a ≠ []) :
    Clean (Clean a ++ '/' :: b) = Clean (a ++ '/' :: b) := by
  cases a with
  | nil => exact absurd rfl ha
  | cons c rest =>
    obtain ⟨out, dd, hcan, hclean, htail⟩ := Clean_state c rest
    rw [htail ('/' :: b) rfl, hclean]
    by_cases hne : out = []
    · subst hne
      have hr : isSep c = false := by
        cases hs : isSep c with
        | false => rfl
        | true =>
          rw [hs] at hcan
          have := canon_rooted [] dd hcan
          simp at this
      have hd : dd = 0 := by simpa using canon_dd_le _ _ _ hcan
      subst hd
      have h1 : finish [] ++ '/' :: b = '.' :: ('/' :: b) := rfl
      rw [h1, Clean_cons, hr]
      have h2 : isSep '.' = false := rfl
      simp only [h2, Bool.false_eq_true, if_false]
      rw [cleanRun_dot false ('/' :: b) _ rfl]
      rfl
    · have hf : finish out = out.reverse := by
        unfold finish
        rw [if_neg]
        simpa using hne
      rw [hf, Clean_of_canon _ out dd hcan hne ('/' :: b) rfl]

/-- A doubled separator cleans like a single one. -/
theorem Clean_dup_sep (u v : List Char) :
    Clean (u ++ '/' :: '/' :: v) = Clean (u ++ '/' :: v) := by
  cases u with
  | nil =>
    have hs : isSep '/' = true := rfl
    simp only [List.nil_append]
    rw [Clean_cons, Clean_cons]
    simp only [hs, if_true]
    rw [cleanRun_sep]
  | cons c rest =>
    obtain ⟨out, dd, _, _, htail⟩ := Clean_state c rest
    rw [htail ('/' :: '/' :: v) rfl, htail ('/' :: v) rfl, cleanRun_sep]

theorem finish_elem (e x : List Char) (he : e ≠ []) :
    finish (e.reverse ++ x) = x.reverse ++ e := by
  unfold finish
  rw [if_neg]
  · simp
  · cases e with
    | nil => exact absurd rfl he
    | cons a e => simp

/-- A real last element is the end of the cleaned path. -/
theorem Clean_last (u name : List Char) (he : IsElem name) :
    ∃ q, Clean (u ++ '/' :: name) = q ++ name := by
  have hrun : ∀ rooted st, ∃ x, (cleanRun rooted name st).1 = name.reverse ++ x := by
    intro rooted st
    have := cleanRun_elem rooted name [] st he rfl
    rw [List.append_nil, cleanRun_nil] at this
    exact ⟨sepFor rooted st.1, by rw [this]⟩
  cases u with
  | nil =>
    have hs : isSep '/' = true := rfl
    simp only [List.nil_append]
    rw [Clean_cons]
    simp only [hs, if_true]
    obtain ⟨x, hx⟩ := hrun true (initState true)
    rw [hx, finish_elem _ _ he.1]
    exact ⟨_, rfl⟩
  | cons c rest =>
    obtain ⟨out, dd, _, _, htail⟩ := Clean_state c rest
    rw [htail ('/' :: name) rfl, cleanRun_sep]
    obtain ⟨x, hx⟩ := hrun (isSep c) (out, dd)
    rw [hx, finish_elem _ _ he.1]
    exact ⟨_, rfl⟩

/-- A path that starts with a `.` element cleans like the rest of it. -/
theorem Clean_dot_slash (c : Char) (rest : List Char) (hc : isSep c = false) :
    Clean ('.' :: '/' :: c :: rest) = Clean (c :: rest) := by
  have h2 : isSep '.' = false := rfl
  rw [Clean_cons, Clean_cons]
  simp only [h2, hc, Bool.false_eq_true, if_false]
  rw [cleanRun_dot false ('/' :: c :: rest) _ rfl, cleanRun_sep]

/-! ## Theory of `Ext`, `Base` and `Dir` -/

theorem extLoop_suffix (rev : List Char) :
    ∀ acc, ∃ t, rev.reverse ++ acc = t ++ extLoop rev acc := by
  induction rev with
  | nil => intro acc; exact ⟨acc, by simp [extLoop]⟩
  | cons c rev ih =>
    intro acc
    unfold extLoop
    split
    · exact ⟨_, (List.append_nil _).symm⟩
    · split
      · exact ⟨rev.reverse, by simp⟩
      · obtain ⟨t, ht⟩ := ih (c :: acc)
        exact ⟨t, by rw [← ht]; simp⟩

/-- The extension is a suffix of the path. -/
theorem Ext_suffix (path : List Char) : ∃ t, path = t ++ Ext path := by
  obtain ⟨t, ht⟩ := extLoop_suffix path.reverse []
  exact ⟨t, by simpa [Ext] using ht⟩

/-- Cutting the extension off and putting it back gives the path. -/
theorem take_append_Ext (path : List Char) :
    path.take (path.length - (Ext path).length) ++ Ext path = path := by
  obtain ⟨t, ht⟩ := Ext_suffix path
  have hl : path.length - (Ext path).length = t.length := by
    have := congrArg List.length ht
    rw [List.length_append] at this
    omega
  rw [hl]
  have htake : path.take t.length = t := by
    conv_lhs => rw [ht]
    exact List.take_left' rfl
  rw [htake]
  exact ht.symm

theorem Ext_append_mp4 (stem : List Char) : Ext (stem ++ mp4) = mp4 := by
  simp [Ext, mp4, extLoop, isSep]

theorem take_stem_mp4 (stem : List Char) :
    (stem ++ mp4).take ((stem ++ mp4).length - (Ext (stem ++ mp4)).length) = stem := by
  rw [Ext_append_mp4]
  simp [mp4]

theorem dropWhile_append_all (f : Char → Bool) (l1 l2 : List Char) (h : ∀ c ∈ l1, f c = true) :
    (l1 ++ l2).dropWhile f = l2.dropWhile f := by
  induction l1 with
  | nil => rfl
  | cons a l1 ih =>
    rw [List.cons_append, List.dropWhile_cons, if_pos (h a (by simp))]
    exact ih (fun c hc => h c (by simp [hc]))

theorem takeWhile_append_all (f : Char → Bool) (l1 l2 : List Char) (h : ∀ c ∈ l1, f c = true) :
    (l1 ++ l2).takeWhile f = l1 ++ l2.takeWhile f := by
  induction l1 with
  | nil => rfl
  | cons a l1 ih =>
    rw [List.cons_append, List.takeWhile_cons, if_pos (h a (by simp))]
    rw [ih (fun c hc => h c (by simp [hc]))]
    rfl

/-- Every path splits at its last separator. -/
theorem split_last (path : List Char) : ∃ pre name, path = pre ++ name ∧
    (∀ c ∈ name, isSep c = false) ∧ (pre = [] ∨ ∃ u, pre = u ++ ['/']) := by
  refine ⟨(path.reverse.dropWhile (fun c => !isSep c)).reverse,
    (path.reverse.takeWhile (fun c => !isSep c)).reverse, ?_, ?_, ?_⟩
  · rw [← List.reverse_append, List.takeWhile_append_dropWhile, List.reverse_reverse]
  · intro c hc
    have := List.mem_takeWhile_imp (List.mem_reverse.mp hc)
    simpa using this
  · cases hd : path.reverse.dropWhile (fun c => !isSep c) with
    | nil => exact Or.inl rfl
    | cons t tl =>
      have := List.head_dropWhile_not (fun x => !isSep x) path.reverse (by rw [hd]; simp)
      simp only [hd, List.head_cons] at this
      have ht : t = '/' := (isSep_iff t).mp (by simpa using this)
      exact Or.inr ⟨tl.reverse, by simp [ht]⟩

theorem Dir_split (pre name : List Char) (hn : ∀ c ∈ name, isSep c = false)
    (hp : pre = [] ∨ ∃ u, pre = u ++ ['/']) : Dir (pre ++ name) = Clean pre := by
  unfold Dir
  congr 1
  rw [List.reverse_append, dropWhile_append_all _ _ _
    (fun c hc => by simpa using hn c (List.mem_reverse.mp hc))]
  rcases hp with rfl | ⟨u, rfl⟩
  · rfl
  · simp [List.dropWhile, isSep]

theorem Base_split (pre name : List Char) (hne : name ≠ []) (hn : ∀ c ∈ name, isSep c = false)
    (hp : pre = [] ∨ ∃ u, pre = u ++ ['/']) : Base (pre ++ name) = name := by
  have hrev : ∃ a r, name.reverse = a :: r := by
    cases hr : name.reverse with
    | nil => exact absurd (List.reverse_eq_nil_iff.mp hr) hne
    | cons a r => exact ⟨a, r, rfl⟩
  obtain ⟨a, r, har⟩ := hrev
  have ha : isSep a = false := hn a (List.mem_reverse.mp (by rw [har]; simp))
  have hall : ∀ c ∈ name.reverse, (fun c => !isSep c) c = true :=
    fun c hc => by simpa using hn c (List.mem_reverse.mp hc)
  have hne2 : pre ++ name ≠ [] := by simp [hne]
  have hdrop : (pre ++ name).reverse.dropWhile isSep = name.reverse ++ pre.reverse := by
    rw [List.reverse_append, har, List.cons_append, List.dropWhile_cons, if_neg (by simp [ha])]
  have htake : (name.reverse ++ pre.reverse).takeWhile (fun c => !isSep c) = name.reverse := by
    rw [takeWhile_append_all _ _ _ hall]
    rcases hp with rfl | ⟨u, rfl⟩
    · simp
    · simp [List.takeWhile, isSep]
  unfold Base
  rw [if_neg hne2]
  simp only [hdrop, htake, List.reverse_reverse]
  rw [if_neg hne]

/-! ## Theory of `changeExtension` -/

theorem Join_pair (a b : List Char) (ha : a ≠ []) : Join [a, b] = Clean (a ++ '/' :: b) := by
  simp [Join, ha, List.intercalate]

theorem changeExtension_eq (file newExt : List Char) :
    changeExtension file newExt =
      Clean (Dir file ++ '/' ::
        ((Base file).take ((Base file).length - (Ext (Base file)).length) ++ newExt)) := by
  unfold changeExtension
  exact Join_pair _ _ (Clean_ne_nil _)

theorem mp4_no_sep : ∀ c ∈ mp4, isSep c = false := by decide

theorem isElem_append_mp4 (l : List Char) (hl : ∀ c ∈ l, isSep c = false) : IsElem (l ++ mp4) := by
  have hlen : 4 ≤ (l ++ mp4).length := by simp [mp4]
  refine ⟨?_, ?_, ?_, ?_⟩
  · intro h; rw [h] at hlen; simp at hlen
  · intro c hc
    rcases List.mem_append.mp hc with h | h
    · exact hl c h
    · exact mp4_no_sep c h
  · intro h; rw [h] at hlen; simp at hlen
  · intro h; rw [h] at hlen; simp at hlen

/-- The derived path is clean and ends in the new extension. -/
theorem changeExtension_shape (file : List Char) :
    Clean (changeExtension file mp4) = changeExtension file mp4 ∧
      ∃ q, changeExtension file mp4 = q ++ mp4 := by
  rw [changeExtension_eq]
  refine ⟨Clean_idem _, ?_⟩
  generalize (Base file).take ((Base file).length - (Ext (Base file)).length) = stem
  obtain ⟨pre, l, hsplit, hl, hpre⟩ := split_last stem
  have he := isElem_append_mp4 l hl
  subst hsplit
  rcases hpre with rfl | ⟨u, rfl⟩
  · obtain ⟨q, hq⟩ := Clean_last (Dir file) (l ++ mp4) he
    refine ⟨q ++ l, ?_⟩
    simp only [List.nil_append]
    rw [hq, List.append_assoc]
  · obtain ⟨q, hq⟩ := Clean_last (Dir file ++ '/' :: u) (l ++ mp4) he
    refine ⟨q ++ l, ?_⟩
    have : Dir file ++ '/' :: ((u ++ ['/']) ++ l ++ mp4) =
        (Dir file ++ '/' :: u) ++ '/' :: (l ++ mp4) := by simp
    rw [this, hq, List.append_assoc]

/-- A clean path that ends in `.mp4` is its own derived path. -/
theorem changeExtension_fixed (q : List Char) (hclean : Clean (q ++ mp4) = q ++ mp4) :
    changeExtension (q ++ mp4) mp4 = q ++ mp4 := by
  obtain ⟨pre, l, hsplit, hl, hpre⟩ := split_last q
  subst hsplit
  have he := isElem_append_mp4 l hl
  have hpath : (pre ++ l) ++ mp4 = pre ++ (l ++ mp4) := List.append_assoc _ _ _
  rw [hpath] at hclean ⊢
  rw [changeExtension_eq, Base_split pre (l ++ mp4) he.1 he.2.1 hpre,
    Dir_split pre (l ++ mp4) he.2.1 hpre, take_stem_mp4]
  rcases hpre with rfl | ⟨u, rfl⟩
  · have hc : Clean ([] : List Char) = ['.'] := rfl
    rw [hc]
    simp only [List.nil_append] at hclean ⊢
    obtain ⟨c, rest, hcr⟩ : ∃ c rest, l ++ mp4 = c :: rest := by
      cases h : l ++ mp4 with
      | nil => exact absurd h he.1
      | cons c rest => exact ⟨c, rest, rfl⟩
    have hcs : isSep c = false := he.2.1 c (by rw [hcr]; simp)
    rw [hcr] at hclean ⊢
    exact (Clean_dot_slash c rest hcs).trans hclean
  · rw [Clean_join_absorb _ _ (by simp)]
    have : (u ++ ['/']) ++ '/' :: (l ++ mp4) = u ++ '/' :: '/' :: (l ++ mp4) := by simp
    rw [this, Clean_dup_sep]
    have : u ++ '/' :: (l ++ mp4) = (u ++ ['/']) ++ (l ++ mp4) := by simp
    rw [this]
    exact hclean

/-! ## Theory of the scanner -/

theorem digit_facts : ∀ c ∈ decimalDigits, c.isDigit = true ∧ c ∈ decimalDigits ++ ['_'] ∧
    c ∉ "nN".toList ∧ c ∉ "+-".toList ∧ c ∉ "iI".toList ∧ c ∉ "xX".toList ∧ c ∉ ".".toList ∧
    c ∉ "eEpP".toList ∧ c ≠ ':' ∧ c ≠ '.' := by decide

theorem acceptLoop_append (ok D : List Char) (hD : ∀ c ∈ D, c ∈ ok) (rest : List Char)
    (hr : ∀ c, rest.head? = some c → c ∉ ok) :
    ∀ buf, acceptLoop ok (D ++ rest) buf = (rest, D.reverse ++ buf) := by
  induction D with
  | nil =>
    intro buf
    cases rest with
    | nil => rfl
    | cons c r =>
      have := hr c rfl
      simp [acceptLoop, this]
  | cons c D ih =>
    intro buf
    have hc : c ∈ ok := hD c (by simp)
    rw [List.cons_append, acceptLoop, if_pos hc, ih (fun x hx => hD x (by simp [hx]))]
    simp

theorem accept_fail (ok : List Char) (st : List Char × List Char)
    (h : ∀ c, st.1.head? = some c → c ∉ ok) : accept ok st = (false, st) := by
  obtain ⟨input, buf⟩ := st
  cases input with
  | nil => rfl
  | cons c r =>
    have := h c rfl
    simp [accept, this]

theorem accept_ok (ok : List Char) (c : Char) (r buf : List Char) (h : c ∈ ok) :
    accept ok (c :: r, buf) = (true, (r, c :: buf)) := by
  simp [accept, h]

/-- The scanner state of `floatToken` after the digits of an unsigned decimal numeral. -/
theorem floatToken_digits_state (D rest : List Char) (hne : D ≠ [])
    (hD : ∀ c ∈ D, c ∈ decimalDigits)
    (hr : ∀ c, rest.head? = some c → c = ':' ∨ c = '.') :
    floatToken (D ++ rest) =
      (let d1 : List Char × List Char := (rest, D.reverse)
       let pt := accept ".".toList d1
       let d2 := if pt.1 then acceptAll (decimalDigits ++ ['_']) pt.2 else pt.2
       let ex := accept "eEpP".toList d2
       let d3 := if ex.1 then acceptAll (decimalDigits ++ ['_']) (accept "+-".toList ex.2).2 else ex.2
       (d3.2.reverse, d3.1)) := by
  cases D with
  | nil => exact absurd rfl hne
  | cons c D =>
    have hc := digit_facts c (hD c (by simp))
    have hDd : ∀ x ∈ D, x ∈ decimalDigits ++ ['_'] :=
      fun x hx => (digit_facts x (hD x (by simp [hx]))).2.1
    have hrest : ∀ x, rest.head? = some x → x ∉ decimalDigits ++ ['_'] := by
      intro x hx
      rcases hr x hx with rfl | rfl <;> decide
    have hhead : ∀ x, (D ++ rest).head? = some x → x ∉ "xX".toList := by
      intro x hx
      cases D with
      | nil =>
        rcases hr x hx with rfl | rfl <;> decide
      | cons y D =>
        simp at hx
        subst hx
        exact (digit_facts y (hD y (by simp))).2.2.2.2.2.1
    have e1 : accept "nN".toList (c :: (D ++ rest), []) = (false, (c :: (D ++ rest), [])) :=
      accept_fail _ _ (fun x hx => by simp at hx; subst hx; exact hc.2.2.1)
    have e2 : accept "+-".toList (c :: (D ++ rest), []) = (false, (c :: (D ++ rest), [])) :=
      accept_fail _ _ (fun x hx => by simp at hx; subst hx; exact hc.2.2.2.1)
    have e3 : accept "iI".toList (c :: (D ++ rest), []) = (false, (c :: (D ++ rest), [])) :=
      accept_fail _ _ (fun x hx => by simp at hx; subst hx; exact hc.2.2.2.2.1)
    unfold floatToken
    simp only [List.cons_append, e1, e2, e3, Bool.false_eq_true, if_false]
    by_cases h0 : c = '0'
    · subst h0
      have e4 : accept "0".toList ('0' :: (D ++ rest), []) = (true, (D ++ rest, ['0'])) :=
        accept_ok _ _ _ _ (by decide)
      have e5 : accept "xX".toList (D ++ rest, ['0']) = (false, (D ++ rest, ['0'])) :=
        accept_fail _ _ hhead
      have e6 : acceptAll (decimalDigits ++ ['_']) (D ++ rest, ['0']) =
          (rest, ('0' :: D).reverse) := by
        unfold acceptAll
        rw [acceptLoop_append _ D hDd rest hrest]
        simp
      simp only [e4, e5, e6, if_true, Bool.false_eq_true, if_false]
    · have e4 : accept "0".toList (c :: (D ++ rest), []) = (false, (c :: (D ++ rest), [])) :=
        accept_fail _ _ (fun x hx => by simp at hx; subst hx; simpa using h0)
      have e6 : acceptAll (decimalDigits ++ ['_']) (c :: (D ++ rest), []) =
          (rest, (c :: D).reverse) := by
        unfold acceptAll
        have := acceptLoop_append _ (c :: D)
          (fun x hx => (digit_facts x (hD x hx)).2.1) rest hrest []
        simpa using this
      simp only [e4, e6, Bool.false_eq_true, if_false]



/-- The token of a run of digits that ends the input or is followed by a colon. -/
theorem floatToken_int (D rest : List Char) (hne : D ≠ []) (hD : ∀ c ∈ D, c ∈ decimalDigits)
    (hr : ∀ c, rest.head? = some c → c = ':') : floatToken (D ++ rest) = (D, rest) := by
  rw [floatToken_digits_state D rest hne hD (fun c hc => Or.inl (hr c hc))]
  have e1 : accept ".".toList (rest, D.reverse) = (false, (rest, D.reverse)) :=
    accept_fail _ _ (fun x hx => by rw [hr x hx]; decide)
  have e2 : accept "eEpP".toList (rest, D.reverse) = (false, (rest, D.reverse)) :=
    accept_fail _ _ (fun x hx => by rw [hr x hx]; decide)
  simp only [e1, e2, Bool.false_eq_true, if_false, List.reverse_reverse]

/-- The token of digits, a dot and digits at the end of the input: the dot and
the fraction belong to the token. -/
theorem floatToken_frac (S F : List Char) (hne : S ≠ []) (hS : ∀ c ∈ S, c ∈ decimalDigits)
    (hF : ∀ c ∈ F, c ∈ decimalDigits) :
    floatToken (S ++ '.' :: F) = (S ++ '.' :: F, []) := by
  rw [floatToken_digits_state S ('.' :: F) hne hS (fun c hc => Or.inr (by simpa using hc.symm))]
  have e1 : accept ".".toList ('.' :: F, S.reverse) = (true, (F, '.' :: S.reverse)) :=
    accept_ok _ _ _ _ (by decide)
  have e2 : acceptAll (decimalDigits ++ ['_']) (F, '.' :: S.reverse) =
      ([], F.reverse ++ '.' :: S.reverse) := by
    unfold acceptAll
    have := acceptLoop_append (decimalDigits ++ ['_']) F
      (fun x hx => (digit_facts x (hF x hx)).2.1) [] (fun c hc => by simp at hc) ('.' :: S.reverse)
    simpa using this
  have e3 : accept "eEpP".toList ([], F.reverse ++ '.' :: S.reverse) =
      (false, ([], F.reverse ++ '.' :: S.reverse)) := rfl
  simp only [e1, e2, e3, if_true, Bool.false_eq_true, if_false]
  simp

theorem takeWhile_digits (D rest : List Char) (hD : ∀ c ∈ D, c ∈ decimalDigits)
    (hr : ∀ c, rest.head? = some c → c.isDigit = false) :
    (D ++ rest).takeWhile Char.isDigit = D ∧ (D ++ rest).dropWhile Char.isDigit = rest := by
  induction D with
  | nil =>
    cases rest with
    | nil => exact ⟨rfl, rfl⟩
    | cons c r =>
      have := hr c rfl
      simp [List.takeWhile, List.dropWhile, this]
  | cons c D ih =>
    have hc := (digit_facts c (hD c (by simp))).1
    have ih' := ih (fun x hx => hD x (by simp [hx]))
    simp only [List.cons_append, List.takeWhile_cons, List.dropWhile_cons, hc, if_true]
    exact ⟨by rw [ih'.1], ih'.2⟩

theorem convertFloat_int (D : List Char) (hne : D ≠ []) (hD : ∀ c ∈ D, c ∈ decimalDigits) :
    convertFloat D = some (decimalValue D : ℚ) := by
  have h := takeWhile_digits D [] hD (fun c hc => by simp at hc)
  simp only [List.append_nil] at h
  unfold convertFloat
  simp only [h.1, h.2, if_neg hne]

theorem convertFloat_frac (S F : List Char) (hS : S ≠ []) (hF : F ≠ [])
    (hSd : ∀ c ∈ S, c ∈ decimalDigits) (hFd : ∀ c ∈ F, c ∈ decimalDigits) :
    convertFloat (S ++ '.' :: F) = some ((decimalValue (S ++ F) : ℚ) / 10 ^ F.length) := by
  have h := takeWhile_digits S ('.' :: F) hSd (fun c hc => by
    simp at hc; subst hc; rfl)
  have hall : F.all Char.isDigit = true := by
    rw [List.all_eq_true]
    exact fun c hc => (digit_facts c (hFd c hc)).1
  unfold convertFloat
  simp only [h.1, h.2]
  rw [if_pos]
  exact ⟨by simp, hS, hF, hall⟩

theorem decimalValue_foldl (F : List Char) : ∀ n : Nat,
    F.foldl (fun n c => 10 * n + digitVal c) n = n * 10 ^ F.length + decimalValue F := by
  induction F with
  | nil => intro n; simp [decimalValue]
  | cons c F ih =>
    intro n
    simp only [List.foldl_cons, decimalValue, List.length_cons]
    rw [ih (10 * n + digitVal c), ih (10 * 0 + digitVal c)]
    ring

theorem decimalValue_append (S F : List Char) :
    decimalValue (S ++ F) = decimalValue S * 10 ^ F.length + decimalValue F := by
  unfold decimalValue
  rw [List.foldl_append]
  exact decimalValue_foldl F _

/-- What `Sscanf` reads from a time stamp `H:M:S.F` of four runs of digits: the
third operand takes the seconds with their fraction, and the scan ends at
the dot of the format with the fourth operand left at 0. -/
theorem sscanfTime_digits (H M S F : List Char) (hH : H ≠ []) (hM : M ≠ []) (hS : S ≠ [])
    (hF : F ≠ []) (hHd : ∀ c ∈ H, c ∈ decimalDigits) (hMd : ∀ c ∈ M, c ∈ decimalDigits)
    (hSd : ∀ c ∈ S, c ∈ decimalDigits) (hFd : ∀ c ∈ F, c ∈ decimalDigits) :
    sscanfTime (H ++ ':' :: (M ++ ':' :: (S ++ '.' :: F))) =
      some ((decimalValue H : ℚ), (decimalValue M : ℚ),
        (decimalValue S : ℚ) + (decimalValue F : ℚ) / 10 ^ F.length, 0) := by
  have scan_int : ∀ (D rest : List Char), D ≠ [] → (∀ c ∈ D, c ∈ decimalDigits) →
      scanFloat (D ++ ':' :: rest) = Scan.value (decimalValue D : ℚ) (':' :: rest) := by
    intro D rest hne hD
    have ht := floatToken_int D (':' :: rest) hne hD (fun c hc => by simpa using hc.symm)
    cases D with
    | nil => exact absurd rfl hne
    | cons c D =>
      simp only [List.cons_append] at ht ⊢
      simp only [scanFloat, ht, convertFloat_int (c :: D) hne hD]
  have scan_frac : scanFloat (S ++ '.' :: F) =
      Scan.value ((decimalValue (S ++ F) : ℚ) / 10 ^ F.length) [] := by
    have ht := floatToken_frac S F hS hSd hFd
    cases S with
    | nil => exact absurd rfl hS
    | cons c S =>
      simp only [List.cons_append] at ht ⊢
      simp only [scanFloat, ht]
      rw [← List.cons_append, convertFloat_frac (c :: S) F hS hF hSd hFd]
      rfl
  have hpow : (10 : ℚ) ^ F.length ≠ 0 := pow_ne_zero _ (by norm_num)
  have hval : (decimalValue (S ++ F) : ℚ) / 10 ^ F.length =
      (decimalValue S : ℚ) + (decimalValue F : ℚ) / 10 ^ F.length := by
    rw [decimalValue_append]
    push_cast
    field_simp
  unfold sscanfTime
  simp only [scan_int H _ hH hHd, scanLiteral, if_true, scan_int M _ hM hMd, scan_frac, hval]

/-- The value of `calculatePercent` on a time stamp `H:M:S.F` of four runs of
digits: the fraction counts as `F / 10 ^ k` for its `k` digits. -/
theorem calculatePercent_digits (H M S F : List Char) (d : ℚ) (hH : H ≠ []) (hM : M ≠ [])
    (hS : S ≠ []) (hF : F ≠ []) (hHd : ∀ c ∈ H, c ∈ decimalDigits)
    (hMd : ∀ c ∈ M, c ∈ decimalDigits) (hSd : ∀ c ∈ S, c ∈ decimalDigits)
    (hFd : ∀ c ∈ F, c ∈ decimalDigits) :
    calculatePercent (H ++ ':' :: (M ++ ':' :: (S ++ '.' :: F))) d =
      some (((decimalValue H : ℚ) * 3600 + (decimalValue M : ℚ) * 60 + (decimalValue S : ℚ) +
        (decimalValue F : ℚ) / 10 ^ F.length) / d * 100) := by
  unfold calculatePercent
  rw [sscanfTime_digits H M S F hH hM hS hF hHd hMd hSd hFd]
  simp only [Option.map_some', Option.some.injEq]
  ring

/-! ## The claims -/

/-- C1: for every path `p`, `changeExtension p ".mp4"` is `Join [Dir p, stem ++ ".mp4"]`
where `stem` is `Base p` without its extension `Ext (Base p)`; `/a/b/clip.mov`
gives `/a/b/clip.mp4` and `clip` gives `clip.mp4`. -/
theorem changeExtension_spec :
    (∀ p : List Char, ∃ stem, stem ++ Ext (Base p) = Base p ∧
      changeExtension p mp4 = Join [Dir p, stem ++ mp4]) ∧
    changeExtension "/a/b/clip.mov".toList mp4 = "/a/b/clip.mp4".toList ∧
    changeExtension "clip".toList mp4 = "clip.mp4".toList := by
  refine ⟨fun p => ⟨(Base p).take ((Base p).length - (Ext (Base p)).length),
    take_append_Ext (Base p), rfl⟩, by decide, by decide⟩

/-! ## Theory of the traces -/

theorem encodeCalls_append (a b : List Event) :
    encodeCalls (a ++ b) = encodeCalls a ++ encodeCalls b := by
  induction a with
  | nil => rfl
  | cons e a ih => cases e <;> simp [encodeCalls, ih]

theorem encodeCalls_of_not_subprocess (l : List Event) (h : ∀ e ∈ l, ∀ a, e ≠ Event.encode a) :
    encodeCalls l = [] := by
  induction l with
  | nil => rfl
  | cons e l ih =>
    have ih' := ih (fun x hx => h x (by simp [hx]))
    have he := h e (by simp)
    cases e <;> first | exact ih' | exact absurd rfl (he _)

theorem progressEvent_ne_encode (t : List Char) (d : ℚ) (f : List Char) (a : List (List Char)) :
    progressEvent t d f ≠ Event.encode a := by
  unfold progressEvent
  split <;> simp

theorem progressEvent_not_report (t : List Char) (d : ℚ) (f : List Char) :
    isReport (progressEvent t d f) = false := by
  unfold progressEvent
  split <;> rfl

theorem encodeCalls_shown (chunks : List (Option (List Char))) (d : ℚ) (f : List Char) :
    encodeCalls (chunks.filterMap fun m => m.map fun t => progressEvent t d f) = [] := by
  apply encodeCalls_of_not_subprocess
  intro e he a
  obtain ⟨m, _, hm⟩ := List.mem_filterMap.mp he
  cases m with
  | none => simp at hm
  | some t =>
    simp at hm
    rw [← hm]
    exact progressEvent_ne_encode t d f a

/-- The encoder starts of one call of `convertVideo`: one, unless the pipe fails. -/
theorem encodeCalls_convertVideo (a : Attempt) (i o f : List Char) :
    encodeCalls (convertVideo a i o f).1 = if a.pipeFails then [] else [convertArgs i o f] := by
  have hs := encodeCalls_shown a.chunks a.duration f
  unfold convertVideo getVideoDuration
  cases a.pipeFails <;> cases a.startFails <;> cases a.waitFails <;>
    by_cases hd : a.duration ≤ 0 <;>
    simp [encodeCalls, encodeCalls_append, hd, hs]

/-- The function `convertVideo` ends the program exactly when the call does not go through. -/
theorem convertVideo_exit (a : Attempt) (i o f : List Char) :
    (convertVideo a i o f).2 = !a.ok := by
  unfold convertVideo Attempt.ok
  cases a.pipeFails <;> cases a.startFails <;> cases a.waitFails <;> simp

/-- The function `convertVideo` prints neither the size warning nor the success lines. -/
theorem convertVideo_not_report (a : Attempt) (i o f : List Char) :
    ∀ e ∈ (convertVideo a i o f).1, isReport e = false := by
  have hs : (a.chunks.filterMap fun m => m.map fun t => progressEvent t a.duration f).all
      (fun e => !isReport e) = true := by
    rw [List.all_eq_true]
    intro e he
    obtain ⟨m, _, hm⟩ := List.mem_filterMap.mp he
    cases m with
    | none => simp at hm
    | some t =>
      simp at hm
      rw [← hm, progressEvent_not_report t a.duration f]
      rfl
  have hall : (convertVideo a i o f).1.all (fun e => !isReport e) = true := by
    unfold convertVideo getVideoDuration
    cases a.pipeFails <;> cases a.startFails <;> cases a.waitFails <;>
      by_cases hd : a.duration ≤ 0 <;>
      simp only [hd, if_true, if_false, Bool.false_eq_true, List.all_append, List.all_cons,
        List.all_nil, hs, List.cons_append, List.nil_append] <;> rfl
  intro e he
  have := List.all_eq_true.mp hall e he
  simpa using this

theorem encodeCalls_startup (w : World) : encodeCalls (startup w) = [] := by
  unfold startup checkFFmpeg installFFmpeg
  cases w.ffmpegPresent <;> cases w.installOk <;> rfl

theorem startup_not_report (w : World) : ∀ e ∈ startup w, isReport e = false := by
  unfold startup checkFFmpeg installFFmpeg
  cases w.ffmpegPresent <;> cases w.installOk <;> decide

/-- The function `main` with an input argument and the encoder at hand: the
start, the first call of `convertVideo`, then the retry loop. -/
theorem main_run (prog input : List Char) (rest : List (List Char)) (w : World)
    (hff : w.ffmpegPresent = true ∨ w.installOk = true) :
    main (prog :: input :: rest) w =
      if (w.attempt 0).ok then
        ⟨startup w ++ (convertVideo (w.attempt 0) input (changeExtension input mp4) []).1 ++
          (retryLoop w input (changeExtension input mp4) scalingFactors 1 (w.attempt 0).stat).trace,
          (retryLoop w input (changeExtension input mp4) scalingFactors 1
            (w.attempt 0).stat).exitCode⟩
      else
        ⟨startup w ++ (convertVideo (w.attempt 0) input (changeExtension input mp4) []).1, 1⟩ := by
  have hinst : (if !(checkFFmpeg w).2 then installFFmpeg w else ([], false)).2 = false := by
    unfold checkFFmpeg installFFmpeg
    cases hp : w.ffmpegPresent <;> cases hi : w.installOk <;> simp_all
  simp only [main, hinst, convertVideo_exit, startup]
  cases (w.attempt 0).ok <;> simp

theorem retryLoop_done (w : World) (i o : List Char) (fs : List Nat) (k : Nat) (stat : Option Nat)
    (h : fileSize stat ≤ maxSizeBytes ∨ fs = []) :
    retryLoop w i o fs k stat = ⟨report stat, 0⟩ := by
  cases fs with
  | nil => rfl
  | cons f fs =>
    rcases h with h | h
    · simp [retryLoop, h]
    · cases h

theorem retryLoop_step (w : World) (i o : List Char) (f : Nat) (fs : List Nat) (k : Nat)
    (stat : Option Nat) (h : fileSize stat > maxSizeBytes) :
    retryLoop w i o (f :: fs) k stat =
      if (w.attempt k).ok then
        ⟨Event.retry (maxSizeBytes / (1024 * 1024)) (f * 10) ::
            (convertVideo (w.attempt k) i o (scaleFilter f)).1 ++
          (retryLoop w i o fs (k + 1) (w.attempt k).stat).trace,
          (retryLoop w i o fs (k + 1) (w.attempt k).stat).exitCode⟩
      else
        ⟨Event.retry (maxSizeBytes / (1024 * 1024)) (f * 10) ::
          (convertVideo (w.attempt k) i o (scaleFilter f)).1, 1⟩ := by
  have hn : ¬ fileSize stat ≤ maxSizeBytes := by omega
  simp only [retryLoop, hn, if_false, convertVideo_exit]
  cases (w.attempt k).ok <;> simp

/-- The retry loop entered after the k-th call with the factors that are left:
it runs up to the call `k + t` at which the run stops. -/
theorem retryLoop_shape (w : World) (i o : List Char) :
    ∀ (t k : Nat), k + t < 5 →
      (∀ j, k ≤ j → j < k + t → (w.attempt j).ok = true ∧ sizeAfter w j > maxSizeBytes) →
      ((w.attempt (k + t)).ok = false ∨ sizeAfter w (k + t) ≤ maxSizeBytes ∨ k + t = 4) →
      (w.attempt k).ok = true →
      runUpTo w i o k ++ (retryLoop w i o (scalingFactors.drop k) (k + 1) (w.attempt k).stat).trace =
        runUpTo w i o (k + t) ++ (if (w.attempt (k + t)).ok then report (w.attempt (k + t)).stat else [])
      ∧ (retryLoop w i o (scalingFactors.drop k) (k + 1) (w.attempt k).stat).exitCode =
        if (w.attempt (k + t)).ok then 0 else 1 := by
  intro t
  induction t with
  | zero =>
    intro k hk _ hlast hok
    simp only [Nat.add_zero] at hlast ⊢
    have hdone : fileSize (w.attempt k).stat ≤ maxSizeBytes ∨ scalingFactors.drop k = [] := by
      rcases hlast with h | h | h
      · rw [hok] at h; cases h
      · exact Or.inl h
      · exact Or.inr (by rw [h]; rfl)
    rw [retryLoop_done w i o _ _ _ hdone]
    simp [hok]
  | succ t ih =>
    intro k hk hprev hlast hok
    have hover : fileSize (w.attempt k).stat > maxSizeBytes := (hprev k (le_refl _) (by omega)).2
    have hf : scalingFactors.drop k = scalingFactors.getD k 0 :: scalingFactors.drop (k + 1) := by
      have : k < 4 := by omega
      interval_cases k <;> rfl
    have hstep := retryLoop_step w i o (scalingFactors.getD k 0) (scalingFactors.drop (k + 1))
      (k + 1) _ hover
    rw [hf, hstep]
    have hadd : k + (t + 1) = (k + 1) + t := by omega
    rw [hadd] at hk hlast ⊢
    by_cases hok1 : (w.attempt (k + 1)).ok = true
    · have ih' := ih (k + 1) hk (fun j hj1 hj2 => hprev j (by omega) (by omega)) hlast hok1
      rw [if_pos hok1]
      simp only
      refine ⟨?_, ih'.2⟩
      rw [← ih'.1]
      simp [runUpTo, attemptEvents]
    · have hnot : (w.attempt (k + 1)).ok = false := by simpa using hok1
      have ht : t = 0 := by
        by_contra hne
        have := (hprev (k + 1) (by omega) (by omega)).1
        rw [hnot] at this
        cases this
      subst ht
      rw [if_neg hok1]
      simp [runUpTo, attemptEvents, hnot]

/-- The shape of a run: with the encoder at hand, if the calls before the k-th
go through and leave the file over the budget, and the k-th call fails or
leaves the file within the budget or is the fifth, then the run is the trace
up to the k-th call, followed by the report when that call went through. -/
theorem main_shape (prog input : List Char) (rest : List (List Char)) (w : World)
    (hff : w.ffmpegPresent = true ∨ w.installOk = true) (k : Nat) (hk : k < 5)
    (hprev : ∀ j < k, (w.attempt j).ok = true ∧ sizeAfter w j > maxSizeBytes)
    (hlast : (w.attempt k).ok = false ∨ sizeAfter w k ≤ maxSizeBytes ∨ k = 4) :
    main (prog :: input :: rest) w =
      ⟨runUpTo w input (changeExtension input mp4) k ++
          (if (w.attempt k).ok then report (w.attempt k).stat else []),
        if (w.attempt k).ok then 0 else 1⟩ := by
  rw [main_run prog input rest w hff]
  by_cases hok0 : (w.attempt 0).ok = true
  · have h := retryLoop_shape w input (changeExtension input mp4) k 0 (by omega)
      (fun j _ hj => hprev j (by omega)) (by simpa using hlast) hok0
    simp only [Nat.zero_add] at h
    rw [if_pos hok0]
    have h1 := h.1
    have h2 := h.2
    simp only [runUpTo, attemptEvents, List.drop_zero] at h1 h2
    rw [← h1, h2]
  · have hnot : (w.attempt 0).ok = false := by simpa using hok0
    have hk0 : k = 0 := by
      by_contra hne
      have := (hprev 0 (by omega)).1
      rw [hnot] at this
      cases this
    subst hk0
    simp [hnot, runUpTo, attemptEvents]

theorem ok_pipe (a : Attempt) (h : a.ok = true) : a.pipeFails = false := by
  unfold Attempt.ok at h
  cases hp : a.pipeFails <;> simp [hp] at h ⊢

/-- The encoder starts up to the k-th call: one per call with its filter, in
order; the k-th is missing when its pipe fails. -/
theorem encodeCalls_runUpTo (w : World) (i o : List Char) (k : Nat) (hk : k < 5)
    (hprev : ∀ j < k, (w.attempt j).ok = true) :
    encodeCalls (runUpTo w i o k) =
      (allFilters.take (if (w.attempt k).pipeFails then k else k + 1)).map (convertArgs i o) := by
  have h0 := fun h => ok_pipe _ (hprev 0 h)
  have h1 := fun h => ok_pipe _ (hprev 1 h)
  have h2 := fun h => ok_pipe _ (hprev 2 h)
  have h3 := fun h => ok_pipe _ (hprev 3 h)
  interval_cases k
  · cases hp : (w.attempt 0).pipeFails <;>
      simp only [runUpTo, attemptEvents, encodeCalls_append, encodeCalls_startup,
        encodeCalls_convertVideo] <;>
      simp [encodeCalls, encodeCalls_convertVideo, hp, allFilters, scalingFactors]
  · cases hp : (w.attempt 1).pipeFails <;>
      simp only [runUpTo, attemptEvents, encodeCalls_append, encodeCalls_startup,
        encodeCalls_convertVideo] <;>
      simp [encodeCalls, encodeCalls_convertVideo, hp, allFilters, scalingFactors, h0]
  · cases hp : (w.attempt 2).pipeFails <;>
      simp only [runUpTo, attemptEvents, encodeCalls_append, encodeCalls_startup,
        encodeCalls_convertVideo] <;>
      simp [encodeCalls, encodeCalls_convertVideo, hp, allFilters, scalingFactors, h0, h1]
  · cases hp : (w.attempt 3).pipeFails <;>
      simp only [runUpTo, attemptEvents, encodeCalls_append, encodeCalls_startup,
        encodeCalls_convertVideo] <;>
      simp [encodeCalls, encodeCalls_convertVideo, hp, allFilters, scalingFactors, h0, h1, h2]
  · cases hp : (w.attempt 4).pipeFails <;>
      simp only [runUpTo, attemptEvents, encodeCalls_append, encodeCalls_startup,
        encodeCalls_convertVideo] <;>
      simp [encodeCalls, encodeCalls_convertVideo, hp, allFilters, scalingFactors, h0, h1, h2, h3]

theorem attemptEvents_not_report (w : World) (i o : List Char) (k : Nat) :
    ∀ e ∈ attemptEvents w i o k, isReport e = false := by
  intro e he
  cases k with
  | zero => exact convertVideo_not_report _ _ _ _ e he
  | succ j =>
    simp only [attemptEvents, List.mem_cons] at he
    rcases he with rfl | he
    · rfl
    · exact convertVideo_not_report _ _ _ _ e he

/-- Before the report, a run prints neither the size warning nor the success lines. -/
theorem runUpTo_not_report (w : World) (i o : List Char) (k : Nat) :
    ∀ e ∈ runUpTo w i o k, isReport e = false := by
  induction k with
  | zero =>
    intro e he
    simp only [runUpTo, List.mem_append] at he
    rcases he with he | he
    · exact startup_not_report w e he
    · exact attemptEvents_not_report w i o 0 e he
  | succ k ih =>
    intro e he
    simp only [runUpTo, List.mem_append] at he
    rcases he with he | he
    · exact ih e he
    · exact attemptEvents_not_report w i o (k + 1) e he

theorem encodeCalls_report (stat : Option Nat) : encodeCalls (report stat) = [] := by
  unfold report
  split <;> rfl

theorem maxSizeBytes_eq : maxSizeBytes = 10485760 := by decide

theorem maxSizeBytes_mb : maxSizeBytes / (1024 * 1024) = 10 := by decide

/-- The call at which a run stops when every call goes through: the first that
leaves the file within the budget, or the fifth. -/
theorem stop_index (w : World) (hok : ∀ k < 5, (w.attempt k).ok = true) :
    ∃ k < 5, (∀ j < k, (w.attempt j).ok = true ∧ sizeAfter w j > maxSizeBytes) ∧
      (sizeAfter w k ≤ maxSizeBytes ∨ k = 4) := by
  by_cases h0 : sizeAfter w 0 ≤ maxSizeBytes
  · exact ⟨0, by omega, fun j hj => absurd hj (by omega), Or.inl h0⟩
  by_cases h1 : sizeAfter w 1 ≤ maxSizeBytes
  · refine ⟨1, by omega, fun j hj => ?_, Or.inl h1⟩
    interval_cases j
    exact ⟨hok 0 (by omega), by omega⟩
  by_cases h2 : sizeAfter w 2 ≤ maxSizeBytes
  · refine ⟨2, by omega, fun j hj => ?_, Or.inl h2⟩
    interval_cases j
    · exact ⟨hok 0 (by omega), by omega⟩
    · exact ⟨hok 1 (by omega), by omega⟩
  by_cases h3 : sizeAfter w 3 ≤ maxSizeBytes
  · refine ⟨3, by omega, fun j hj => ?_, Or.inl h3⟩
    interval_cases j
    · exact ⟨hok 0 (by omega), by omega⟩
    · exact ⟨hok 1 (by omega), by omega⟩
    · exact ⟨hok 2 (by omega), by omega⟩
  · refine ⟨4, by omega, fun j hj => ?_, Or.inr rfl⟩
    interval_cases j
    · exact ⟨hok 0 (by omega), by omega⟩
    · exact ⟨hok 1 (by omega), by omega⟩
    · exact ⟨hok 2 (by omega), by omega⟩
    · exact ⟨hok 3 (by omega), by omega⟩

/-- A run in which every call goes through, in terms of the call at which it stops. -/
theorem main_all_ok (prog input : List Char) (rest : List (List Char)) (w : World)
    (hff : w.ffmpegPresent = true ∨ w.installOk = true)
    (hok : ∀ k < 5, (w.attempt k).ok = true) :
    ∃ k < 5, (∀ j < k, sizeAfter w j > maxSizeBytes) ∧ (sizeAfter w k ≤ maxSizeBytes ∨ k = 4) ∧
      main (prog :: input :: rest) w =
        ⟨runUpTo w input (changeExtension input mp4) k ++ report (w.attempt k).stat, 0⟩ ∧
      encodeCalls (main (prog :: input :: rest) w).trace =
        (allFilters.take (k + 1)).map (convertArgs input (changeExtension input mp4)) := by
  obtain ⟨k, hk, hprev, hlast⟩ := stop_index w hok
  have hshape := main_shape prog input rest w hff k hk hprev (Or.inr hlast)
  simp only [hok k hk, if_true] at hshape
  refine ⟨k, hk, fun j hj => (hprev j hj).2, hlast, hshape, ?_⟩
  rw [hshape]
  simp only [encodeCalls_append, encodeCalls_report, List.append_nil]
  rw [encodeCalls_runUpTo w input _ k hk (fun j hj => (hprev j hj).1), ok_pipe _ (hok k hk)]
  rfl

/-- C10: deriving the output path is idempotent; a clean path that ends in
`.mp4` is its own output path, and the encoder is then started with that
same path as input and as the output to overwrite. -/
theorem changeExtension_idempotent (p : List Char) :
    changeExtension (changeExtension p mp4) mp4 = changeExtension p mp4 ∧
    (Clean p = p → (∃ q, p = q ++ mp4) →
      changeExtension p mp4 = p ∧
      ∀ (prog : List Char) (w : World), (w.ffmpegPresent = true ∨ w.installOk = true) →
        (w.attempt 0).pipeFails = false →
        (encodeCalls (main [prog, p] w).trace).head? = some (convertArgs p p [])) := by
  constructor
  · obtain ⟨hclean, q, hq⟩ := changeExtension_shape p
    rw [hq] at hclean ⊢
    exact changeExtension_fixed q hclean
  · rintro hclean ⟨q, rfl⟩
    have hfix := changeExtension_fixed q hclean
    refine ⟨hfix, ?_⟩
    intro prog w hff hpipe
    rw [main_run prog (q ++ mp4) [] w hff, hfix]
    split <;>
      simp [encodeCalls_append, encodeCalls_startup, encodeCalls_convertVideo, hpipe]

theorem changeExtension_idempotent_witness :
    changeExtension "a.mp4".toList mp4 = "a.mp4".toList :=
  ((changeExtension_idempotent "a.mp4".toList).2 (by decide) ⟨"a".toList, by decide⟩).1

/-- C2: when every call of `convertVideo` goes through, the encoder starts are
a prefix of the five calls (unscaled, 0.8, 0.6, 0.4, 0.2) in that order, at
least one and at most five; the k-th call is made exactly when every earlier
call left the file over 10*1024*1024 bytes, so an unscaled output of at most
10485760 bytes is followed by no scaled call. -/
theorem retry_order (prog input : List Char) (rest : List (List Char)) (w : World)
    (hff : w.ffmpegPresent = true ∨ w.installOk = true)
    (hok : ∀ k < 5, (w.attempt k).ok = true) :
    ∃ n, 1 ≤ n ∧ n ≤ 5 ∧
      encodeCalls (main (prog :: input :: rest) w).trace =
        (allFilters.take n).map (convertArgs input (changeExtension input mp4)) ∧
      (∀ k < 5, k < n ↔ ∀ j < k, sizeAfter w j > 10 * 1024 * 1024) ∧
      (sizeAfter w 0 ≤ 10485760 → n = 1) := by
  obtain ⟨k, hk, hprev, hlast, _, hcalls⟩ := main_all_ok prog input rest w hff hok
  have hmax : maxSizeBytes = 10 * 1024 * 1024 := rfl
  rw [hmax] at hprev hlast
  refine ⟨k + 1, by omega, by omega, hcalls, ?_, ?_⟩
  · intro t ht
    constructor
    · intro htk j hj
      exact hprev j (by omega)
    · intro hall
      by_contra hnot
      have hkt : k < t := by omega
      have := hall k hkt
      rcases hlast with h | h <;> omega
  · intro h0
    by_contra hne
    have := hprev 0 (by omega)
    omega

theorem retry_order_witness :
    ∃ n, 1 ≤ n ∧ n ≤ 5 ∧
      encodeCalls (main ["mov_to_mp4".toList, "a.mov".toList]
        (worldOfStats [some 30000000, some 10485760])).trace =
        (allFilters.take n).map (convertArgs "a.mov".toList (changeExtension "a.mov".toList mp4)) ∧
      (∀ k < 5, k < n ↔
        ∀ j < k, sizeAfter (worldOfStats [some 30000000, some 10485760]) j > 10 * 1024 * 1024) ∧
      (sizeAfter (worldOfStats [some 30000000, some 10485760]) 0 ≤ 10485760 → n = 1) :=
  retry_order "mov_to_mp4".toList "a.mov".toList [] (worldOfStats [some 30000000, some 10485760])
    (Or.inl rfl) (fun _ _ => rfl)

theorem report_eq (stat : Option Nat) :
    report stat = if fileSize stat > maxSizeBytes then [Event.warning 10]
      else [Event.success 10, Event.finalSize (fileSize stat)] := by
  unfold report
  rw [maxSizeBytes_mb]

theorem report_warning (stat : Option Nat) :
    Event.warning 10 ∈ report stat ↔ fileSize stat > maxSizeBytes := by
  rw [report_eq]
  by_cases h : fileSize stat > maxSizeBytes
  · simp [h]
  · simp [h]

theorem report_success (stat : Option Nat) :
    Event.success 10 ∈ report stat ↔ fileSize stat ≤ maxSizeBytes := by
  rw [report_eq]
  by_cases h : fileSize stat > maxSizeBytes
  · simp [h]
  · simp [h]; omega

/-- C3: when every call of `convertVideo` goes through, the run ends with exit
status 0; if all five outputs are over the budget the warning is printed and
the success line is not; and the success line is printed exactly when the
output of the last call made is within the budget (the warning exactly when
it is over). -/
theorem report_by_final_size (prog input : List Char) (rest : List (List Char)) (w : World)
    (hff : w.ffmpegPresent = true ∨ w.installOk = true)
    (hok : ∀ k < 5, (w.attempt k).ok = true) :
    (main (prog :: input :: rest) w).exitCode = 0 ∧
    ((∀ k < 5, sizeAfter w k > maxSizeBytes) →
      Event.warning 10 ∈ (main (prog :: input :: rest) w).trace ∧
      Event.success 10 ∉ (main (prog :: input :: rest) w).trace) ∧
    (Event.success 10 ∈ (main (prog :: input :: rest) w).trace ↔
      sizeAfter w ((encodeCalls (main (prog :: input :: rest) w).trace).length - 1)
        ≤ maxSizeBytes) ∧
    (Event.warning 10 ∈ (main (prog :: input :: rest) w).trace ↔
      sizeAfter w ((encodeCalls (main (prog :: input :: rest) w).trace).length - 1)
        > maxSizeBytes) := by
  obtain ⟨k, hk, hprev, hlast, hshape, hcalls⟩ := main_all_ok prog input rest w hff hok
  have hlen : (encodeCalls (main (prog :: input :: rest) w).trace).length - 1 = k := by
    rw [hcalls]
    simp only [List.length_map, List.length_take, allFilters, scalingFactors, List.length_cons,
      List.length_nil]
    omega
  rw [hlen, hshape]
  have hno := runUpTo_not_report w input (changeExtension input mp4) k
  have hs : Event.success 10 ∈ runUpTo w input (changeExtension input mp4) k ++
      report (w.attempt k).stat ↔ sizeAfter w k ≤ maxSizeBytes := by
    rw [List.mem_append, report_success]
    constructor
    · rintro (h | h)
      · have := hno _ h
        cases this
      · exact h
    · exact fun h => Or.inr h
  have hw : Event.warning 10 ∈ runUpTo w input (changeExtension input mp4) k ++
      report (w.attempt k).stat ↔ sizeAfter w k > maxSizeBytes := by
    rw [List.mem_append, report_warning]
    constructor
    · rintro (h | h)
      · have := hno _ h
        cases this
      · exact h
    · exact fun h => Or.inr h
  refine ⟨rfl, ?_, hs, hw⟩
  intro hall
  have hover := hall k hk
  exact ⟨hw.mpr hover, fun h => absurd (hs.mp h) (by omega)⟩

theorem report_by_final_size_witness :
    Event.warning 10 ∈ (main ["mov_to_mp4".toList, "a.mov".toList]
      (worldOfStats (List.replicate 5 (some 30000000)))).trace ∧
    Event.success 10 ∉ (main ["mov_to_mp4".toList, "a.mov".toList]
      (worldOfStats (List.replicate 5 (some 30000000)))).trace :=
  (report_by_final_size "mov_to_mp4".toList "a.mov".toList []
    (worldOfStats (List.replicate 5 (some 30000000))) (Or.inl rfl) (fun _ _ => rfl)).2.1
    (by decide)

theorem getLast?_append_of_some (l1 l2 : List Event) (e : Event) (h : l2.getLast? = some e) :
    (l1 ++ l2).getLast? = some e := by
  rw [List.getLast?_append, h]
  rfl

/-- The line that `convertVideo` prints last when the call does not go through. -/
theorem convertVideo_last (a : Attempt) (i o f : List Char) (h : a.ok = false) :
    (convertVideo a i o f).1.getLast? = some (if a.pipeFails then Event.pipeError
      else if a.startFails then Event.startError else Event.conversionFailed) := by
  unfold Attempt.ok at h
  unfold convertVideo
  cases hp : a.pipeFails
  · cases hs : a.startFails
    · cases hw : a.waitFails
      · simp [hp, hs, hw] at h
      · simp only [Bool.false_eq_true, if_false, if_true]
        exact getLast?_append_of_some _ _ _ rfl
    · simp only [Bool.false_eq_true, if_false, if_true]
      exact getLast?_append_of_some _ _ _ rfl
  · simp only [if_true]
    exact getLast?_append_of_some _ _ _ rfl

theorem attemptEvents_last (w : World) (i o : List Char) (k : Nat)
    (h : (w.attempt k).ok = false) :
    (attemptEvents w i o k).getLast? = some (if (w.attempt k).pipeFails then Event.pipeError
      else if (w.attempt k).startFails then Event.startError else Event.conversionFailed) := by
  cases k with
  | zero => exact convertVideo_last _ _ _ _ h
  | succ j =>
    have := convertVideo_last (w.attempt (j + 1)) i o (scaleFilter (scalingFactors.getD j 0)) h
    unfold attemptEvents
    exact getLast?_append_of_some [_] _ _ this

theorem runUpTo_last (w : World) (i o : List Char) (k : Nat) (h : (w.attempt k).ok = false) :
    (runUpTo w i o k).getLast? = some (if (w.attempt k).pipeFails then Event.pipeError
      else if (w.attempt k).startFails then Event.startError else Event.conversionFailed) := by
  cases k with
  | zero => exact getLast?_append_of_some _ _ _ (attemptEvents_last w i o 0 h)
  | succ j => exact getLast?_append_of_some _ _ _ (attemptEvents_last w i o (j + 1) h)

/-- C4: if the calls before the k-th go through and leave the file over the
budget and the k-th call fails (pipe, start or exit status), the run ends
with exit status 1 at that call: the failure message is the last line, the
encoder starts are those of the calls up to the k-th (without the k-th when
its pipe failed), and neither the warning nor the success lines are printed. -/
theorem encode_failure_fatal (prog input : List Char) (rest : List (List Char)) (w : World)
    (hff : w.ffmpegPresent = true ∨ w.installOk = true) (k : Nat) (hk : k < 5)
    (hprev : ∀ j < k, (w.attempt j).ok = true ∧ sizeAfter w j > maxSizeBytes)
    (hfail : (w.attempt k).pipeFails = true ∨ (w.attempt k).startFails = true ∨
      (w.attempt k).waitFails = true) :
    (main (prog :: input :: rest) w).exitCode = 1 ∧
    (main (prog :: input :: rest) w).trace.getLast? =
      some (if (w.attempt k).pipeFails then Event.pipeError
        else if (w.attempt k).startFails then Event.startError else Event.conversionFailed) ∧
    encodeCalls (main (prog :: input :: rest) w).trace =
      (allFilters.take (if (w.attempt k).pipeFails then k else k + 1)).map
        (convertArgs input (changeExtension input mp4)) ∧
    ∀ e ∈ (main (prog :: input :: rest) w).trace, isReport e = false := by
  have hnot : (w.attempt k).ok = false := by
    unfold Attempt.ok
    rcases hfail with h | h | h <;> simp [h]
  have hshape := main_shape prog input rest w hff k hk hprev (Or.inl hnot)
  simp only [hnot, Bool.false_eq_true, if_false, List.append_nil] at hshape
  rw [hshape]
  exact ⟨rfl, runUpTo_last w input _ k hnot,
    encodeCalls_runUpTo w input _ k hk (fun j hj => (hprev j hj).1),
    runUpTo_not_report w input _ k⟩

theorem encode_failure_fatal_witness :
    (main ["mov_to_mp4".toList, "a.mov".toList] (worldFailingAt 2)).exitCode = 1 ∧
    (main ["mov_to_mp4".toList, "a.mov".toList] (worldFailingAt 2)).trace.getLast? =
      some Event.conversionFailed ∧
    (encodeCalls (main ["mov_to_mp4".toList, "a.mov".toList] (worldFailingAt 2)).trace).length = 3 := by
  have h := encode_failure_fatal "mov_to_mp4".toList "a.mov".toList [] (worldFailingAt 2)
    (Or.inl rfl) 2 (by decide) (by decide) (Or.inr (Or.inr rfl))
  refine ⟨h.1, h.2.1, ?_⟩
  rw [h.2.2.1]
  rfl

/-- C5: with no input-file argument the program prints the usage line and ends
with exit status 1; nothing else is printed and no command is run. -/
theorem usage_without_argument (args : List (List Char)) (w : World) (h : args.length < 2) :
    main args w = ⟨[Event.usage], 1⟩ ∧
    ∀ e ∈ (main args w).trace, isSubprocess e = false := by
  have hmain : main args w = ⟨[Event.usage], 1⟩ := by
    match args, h with
    | [], _ => rfl
    | [_], _ => rfl
    | _ :: _ :: _, h => exfalso; simp only [List.length_cons] at h; omega
  rw [hmain]
  exact ⟨rfl, by decide⟩

theorem usage_without_argument_witness :
    main ["mov_to_mp4".toList] (worldOfStats []) = ⟨[Event.usage], 1⟩ :=
  (usage_without_argument ["mov_to_mp4".toList] (worldOfStats []) (by decide)).1

/-- C8: the argument list of the encoder is the twelve fixed arguments with the
input path, then `-vf` and the filter exactly when the filter is non-empty,
then `-y` and the output path, which are thus the last two arguments; a
call of `convertVideo` starts the encoder with this list (unless the pipe
fails); the unscaled call of `main` has the empty filter and the filters of
the scaled calls are non-empty. -/
theorem convertArgs_spec (input output filter : List Char) :
    convertArgs input output filter =
      ["-i".toList, input, "-c:v".toList, "libx264".toList, "-preset".toList, "medium".toList,
        "-crf".toList, "23".toList, "-c:a".toList, "aac".toList, "-b:a".toList, "128k".toList] ++
      (if filter = [] then [] else ["-vf".toList, filter]) ++ ["-y".toList, output] ∧
    (convertArgs input output filter).drop ((convertArgs input output filter).length - 2) =
      ["-y".toList, output] ∧
    (∀ a : Attempt, encodeCalls (convertVideo a input output filter).1 =
      if a.pipeFails then [] else [convertArgs input output filter]) ∧
    allFilters.head? = some [] ∧ (∀ f ∈ allFilters.tail, f ≠ []) := by
  refine ⟨?_, ?_, fun a => encodeCalls_convertVideo a input output filter, rfl, by decide⟩
  · unfold convertArgs
    by_cases h : filter = [] <;> simp [h]
  · unfold convertArgs
    by_cases h : filter = [] <;> simp [h]

/-- C9 as stated fails: in a world where the output file can never be stat'd,
`fileSize` gives 0 after the unscaled call, and the run makes no further
call: the encoder is started once, the success line is printed and the exit
status is 0. -/
theorem stat_failure_no_retry :
    fileSize ((worldOfStats []).attempt 0).stat = 0 ∧
    (encodeCalls (main ["mov_to_mp4".toList, "a.mov".toList] (worldOfStats [])).trace).length = 1 ∧
    Event.success 10 ∈ (main ["mov_to_mp4".toList, "a.mov".toList] (worldOfStats [])).trace ∧
    (main ["mov_to_mp4".toList, "a.mov".toList] (worldOfStats [])).exitCode = 0 := by
  have hshape := main_shape "mov_to_mp4".toList "a.mov".toList [] (worldOfStats [])
    (Or.inl rfl) 0 (by decide) (by decide) (Or.inr (Or.inl (by decide)))
  have hok : ((worldOfStats []).attempt 0).ok = true := rfl
  simp only [hok, if_true] at hshape
  rw [hshape]
  refine ⟨rfl, ?_, ?_, rfl⟩
  · simp only [encodeCalls_append, encodeCalls_report, List.append_nil]
    rw [encodeCalls_runUpTo _ _ _ 0 (by decide) (by decide)]
    rfl
  · exact List.mem_append_right _ ((report_success _).mpr (by decide))

/-- C9, amended: when the output file cannot be stat'd after a call of
`convertVideo` that went through, `fileSize` gives 0, and the retry
controller takes the file to be within the budget: it makes no further call,
prints the success lines with a final size of 0 bytes and ends with exit
status 0. -/
theorem stat_failure_stops (prog input : List Char) (rest : List (List Char)) (w : World)
    (hff : w.ffmpegPresent = true ∨ w.installOk = true) (k : Nat) (hk : k < 5)
    (hprev : ∀ j < k, (w.attempt j).ok = true ∧ sizeAfter w j > maxSizeBytes)
    (hok : (w.attempt k).ok = true) (hstat : (w.attempt k).stat = none) :
    fileSize (w.attempt k).stat = 0 ∧
    main (prog :: input :: rest) w =
      ⟨runUpTo w input (changeExtension input mp4) k ++ [Event.success 10, Event.finalSize 0], 0⟩ ∧
    encodeCalls (main (prog :: input :: rest) w).trace =
      (allFilters.take (k + 1)).map (convertArgs input (changeExtension input mp4)) := by
  have hsize : sizeAfter w k = 0 := by unfold sizeAfter; rw [hstat]; rfl
  have hshape := main_shape prog input rest w hff k hk hprev
    (Or.inr (Or.inl (by rw [hsize]; exact Nat.zero_le _)))
  have hrep : report (w.attempt k).stat = [Event.success 10, Event.finalSize 0] := by
    rw [hstat]; rfl
  simp only [hok, if_true, hrep] at hshape
  refine ⟨by rw [hstat]; rfl, hshape, ?_⟩
  rw [hshape]
  simp only [encodeCalls_append]
  rw [encodeCalls_runUpTo w input _ k hk (fun j hj => (hprev j hj).1), ok_pipe _ hok]
  simp [encodeCalls]

theorem stat_failure_stops_witness :
    main ["mov_to_mp4".toList, "a.mov".toList] (worldOfStats [some 30000000, none]) =
      ⟨runUpTo (worldOfStats [some 30000000, none]) "a.mov".toList
          (changeExtension "a.mov".toList mp4) 1 ++ [Event.success 10, Event.finalSize 0], 0⟩ :=
  (stat_failure_stops "mov_to_mp4".toList "a.mov".toList [] (worldOfStats [some 30000000, none])
    (Or.inl rfl) 1 (by decide) (by decide) rfl rfl).2.1

theorem sscanfTime_hour : sscanfTime "01:00:00.00".toList =
    some ((decimalValue "01".toList : ℚ), (decimalValue "00".toList : ℚ),
      (decimalValue "0000".toList : ℚ) / 10 ^ 2, 0) := rfl

theorem calculatePercent_hour : calculatePercent "01:00:00.00".toList 3600 = some 100 := by
  have h1 : decimalValue "01".toList = 1 := by decide
  have h2 : decimalValue "00".toList = 0 := by decide
  have h3 : decimalValue "0000".toList = 0 := by decide
  simp only [calculatePercent, sscanfTime_hour, h1, h2, h3, Option.map_some']
  norm_num

theorem progressEvent_pos (currentTime : List Char) (d : ℚ) (filter : List Char) (hd : 0 < d) :
    progressEvent currentTime d filter =
      Event.progress currentTime ((calculatePercent currentTime d).map fun p => min 100 p)
        (resolutionInfo filter) := by
  unfold progressEvent
  rw [if_pos hd]
  cases calculatePercent currentTime d with
  | none => rfl
  | some p =>
    simp only [Option.map_some']
    congr 1
    by_cases hp : p > 100
    · rw [if_pos hp, min_eq_left (le_of_lt hp)]
    · rw [if_neg hp, min_eq_right (not_lt.mp hp)]

/-- C6: for a known duration `d > 0` the percentage `convertVideo` shows for a
matched time stamp is `min 100` of `calculatePercent`, that is of
`elapsed / d * 100`, so it never exceeds 100; for `d ≤ 0` the line is printed
without a percentage and `calculatePercent` is not called, so every
percentage in the output of `convertVideo` comes with a positive duration;
`01:00:00.00` with duration 3600 gives 100. -/
theorem percent_clamped (currentTime : List Char) (d : ℚ) (filter : List Char) :
    (0 < d →
      progressEvent currentTime d filter =
        Event.progress currentTime ((calculatePercent currentTime d).map fun p => min 100 p)
          (resolutionInfo filter) ∧
      calculatePercent currentTime d = (sscanfTime currentTime).map (fun t =>
        (t.1 * 3600 + t.2.1 * 60 + t.2.2.1 + t.2.2.2 / 100) / d * 100) ∧
      ∀ p, ((calculatePercent currentTime d).map fun p => min 100 p) = some p → p ≤ 100) ∧
    (¬ 0 < d → progressEvent currentTime d filter = Event.progressPlain currentTime) ∧
    (∀ (a : Attempt) (i o t : List Char) (p : Option ℚ) (r : Option Nat),
      Event.progress t p r ∈ (convertVideo a i o filter).1 →
        0 < a.duration ∧ ∀ q, p = some q → q ≤ 100) ∧
    progressEvent "01:00:00.00".toList 3600 [] =
      Event.progress "01:00:00.00".toList (some 100) none := by
  have hle : ∀ (t : List Char) (e : ℚ) (p : ℚ),
      ((calculatePercent t e).map fun p => min 100 p) = some p → p ≤ 100 := by
    intro t e p hp
    cases hc : calculatePercent t e with
    | none => rw [hc] at hp; cases hp
    | some q =>
      rw [hc] at hp
      simp only [Option.map_some', Option.some.injEq] at hp
      rw [← hp]
      exact min_le_left _ _
  refine ⟨fun hd => ⟨progressEvent_pos currentTime d filter hd, rfl, hle currentTime d⟩, ?_, ?_, ?_⟩
  · intro hd
    unfold progressEvent
    rw [if_neg hd]
  · intro a i o t p r hmem
    have hshown : Event.progress t p r ∈
        (a.chunks.filterMap fun m => m.map fun ct => progressEvent ct a.duration filter) := by
      unfold convertVideo getVideoDuration at hmem
      cases hp : a.pipeFails <;> cases hs : a.startFails <;> cases hw : a.waitFails <;>
        by_cases hd : a.duration ≤ 0 <;>
        simp only [hp, hs, hw, hd, if_true, if_false, Bool.false_eq_true, List.mem_append,
          List.mem_cons, List.mem_singleton, List.not_mem_nil, or_false, false_or,
          reduceCtorEq] at hmem <;>
        exact hmem
    obtain ⟨m, _, hm⟩ := List.mem_filterMap.mp hshown
    cases m with
    | none => cases hm
    | some ct =>
      simp only [Option.map_some', Option.some.injEq] at hm
      by_cases hd : 0 < a.duration
      · rw [progressEvent_pos ct a.duration filter hd] at hm
        simp only [Event.progress.injEq] at hm
        refine ⟨hd, fun q hq => hle ct a.duration q ?_⟩
        rw [hm.2.1, hq]
      · unfold progressEvent at hm
        rw [if_neg hd] at hm
        cases hm
  · rw [progressEvent_pos _ _ _ (by norm_num), calculatePercent_hour]
    simp [resolutionInfo]

theorem percent_clamped_witness :
    progressEvent "01:00:00.00".toList 3600 (scaleFilter 8) =
      Event.progress "01:00:00.00".toList
        ((calculatePercent "01:00:00.00".toList 3600).map fun p => min 100 p)
        (resolutionInfo (scaleFilter 8)) :=
  ((percent_clamped "01:00:00.00".toList 3600 (scaleFilter 8)).1 (by norm_num)).1

/-- C7 fails on the code at the time stamp `00:00:30.5` with duration 60: the
third `%f` of the format takes `30.5` whole and the scan ends at the dot of
the format, so the operands are 0, 0, 30.5 and 0 and the result is
`30.5 / 60 * 100 = 305/6`, not `(30 + 5/100) / 60 * 100`; on `00:00:30.00`,
whose fraction has two digits, the result is 50 as the claim says. -/
theorem calculatePercent_short_fraction :
    sscanfTime "00:00:30.5".toList = some (0, 0, 61 / 2, 0) ∧
    calculatePercent "00:00:30.5".toList 60 = some (305 / 6) ∧
    (305 / 6 : ℚ) ≠ (0 * 3600 + 0 * 60 + 30 + 5 / 100) / 60 * 100 ∧
    calculatePercent "00:00:30.00".toList 60 = some 50 := by
  have v00 : decimalValue "00".toList = 0 := by decide
  have v30 : decimalValue "30".toList = 30 := by decide
  have v5 : decimalValue "5".toList = 5 := by decide
  have hs := sscanfTime_digits "00".toList "00".toList "30".toList "5".toList
    (by decide) (by decide) (by decide) (by decide) (by decide) (by decide) (by decide) (by decide)
  have hp := calculatePercent_digits "00".toList "00".toList "30".toList "5".toList 60
    (by decide) (by decide) (by decide) (by decide) (by decide) (by decide) (by decide) (by decide)
  have hq := calculatePercent_digits "00".toList "00".toList "30".toList "00".toList 60
    (by decide) (by decide) (by decide) (by decide) (by decide) (by decide) (by decide) (by decide)
  rw [v00, v30, v5] at hs hp
  rw [v00, v30] at hq
  refine ⟨?_, ?_, by norm_num, ?_⟩
  · rw [show "00:00:30.5".toList = "00".toList ++ ':' :: ("00".toList ++ ':' :: ("30".toList ++
      '.' :: "5".toList)) from rfl, hs]
    norm_num
  · rw [show "00:00:30.5".toList = "00".toList ++ ':' :: ("00".toList ++ ':' :: ("30".toList ++
      '.' :: "5".toList)) from rfl, hp]
    norm_num
  · rw [show "00:00:30.00".toList = "00".toList ++ ':' :: ("00".toList ++ ':' :: ("30".toList ++
      '.' :: "00".toList)) from rfl, hq]
    norm_num

end MovToMp4
